import Mathlib

/-! Camlistore blob servers: byte-limited store, shard selectors, proxy cache.

A shallow embedding of

* `pkg/blobserver/limit/limit.go` (`limit.Storage`),
* `pkg/blobserver/shard/selectors.go` (`RegularBackendSelector`,
  `SizeWeightedBackendSelector`),
* `pkg/blobserver/proxycache/proxycache.go` (touches, the cleaner, `Fetch`,
  `ReceiveBlob` and the consumer of `StatBlobs`),

followed by theorems about the embedded functions.

Conventions.  Go's `uint32`, `uint64` and `int64` values are natural numbers or
integers, with the reduction modulo `2^32` or `2^64` written out wherever the
source can wrap.  An `io.Reader` over an in-memory blob is the list of bytes it
has not delivered yet; reading at the end of the list yields `(0, io.EOF)`.
-/

namespace Camlistore

/-! ## Package blob and the error values -/

/-- A byte. -/
abbrev Byte := Nat

/-- The value of blob.Ref that the code in scope reads: its canonical string
form (`key`, compared for equality only) and the two hash projections. -/
structure Ref where
  key : Nat
  sum32 : Nat
  sum64 : Nat
deriving DecidableEq

/-- The method `Ref.Sum32`, a `uint32`. -/
def Ref.Sum32 (b : Ref) : Nat := b.sum32 % 2 ^ 32

/-- The method `Ref.Sum64`, a `uint64`. -/
def Ref.Sum64 (b : Ref) : Nat := b.sum64 % 2 ^ 64

/-- The struct blob.SizedRef; `Size` is a `uint32` in the source. -/
structure SizedRef where
  Ref : Ref
  Size : Nat
deriving DecidableEq

/-- The error values the code distinguishes by identity, and all others. -/
inductive Error
  | EOF
  | ErrTooBig
  | ErrNotExist
  | other (code : Nat)
deriving DecidableEq

/-! ## Package limit -/

namespace limit

/-- The struct limit.Storage without its embedded inner store, which is passed
to the methods that call it. -/
structure Storage where
  maxSize : Nat
  size : Nat
deriving DecidableEq

/-- The constructor `NewLimit`. -/
def NewLimit (max : Nat) : Storage := { maxSize := max % 2 ^ 64, size := 0 }

/-- The method `Consumed`; the field is a `uint64`. -/
def Storage.Consumed (s : Storage) : Nat := s.size % 2 ^ 64

/-- The method `Capacity`; the field is a `uint64`. -/
def Storage.Capacity (s : Storage) : Nat := s.maxSize % 2 ^ 64

/-- The method `Available`: `s.maxSize - s.size` in `uint64` arithmetic. -/
def Storage.Available (s : Storage) : Nat :=
  (s.maxSize % 2 ^ 64 + 2 ^ 64 - s.size % 2 ^ 64) % 2 ^ 64

/-- The conversion `int64(x)` of a `uint64`. -/
def int64 (x : Nat) : Int :=
  if x % 2 ^ 64 < 2 ^ 63 then (x % 2 ^ 64 : Nat) else ((x % 2 ^ 64 : Nat) : Int) - 2 ^ 64

/-- The bytes `io.LimitReader(source, n)` can deliver: none when `n ≤ 0`, else
at most the first `n` of the source. -/
def LimitReader (source : List Byte) (n : Int) : List Byte :=
  source.take n.toNat

/-- What a call of the inner store's `ReceiveBlob` did: the number of bytes it
took from the reader it was handed, and the pair it returned. -/
structure InnerResult where
  read : Nat
  sr : SizedRef
  err : Option Error
deriving DecidableEq

/-- The embedded blobserver.Storage, seen through `ReceiveBlob`: a function of
the blob ref and of the bytes its reader can deliver. -/
abbrev InnerStore := Ref → List Byte → InnerResult

/-- The call `source.Read(make([]byte, 1))`: the count and the error. -/
def readOne (source : List Byte) : Nat × Option Error :=
  match source with
  | [] => (0, some Error.EOF)
  | _ :: _ => (1, none)

/-- What `ReceiveBlob` leaves behind: the receiver after the call and the two
returned values. -/
structure ReceiveResult where
  store : Storage
  sr : SizedRef
  err : Option Error
deriving DecidableEq

/-- The method `Storage.ReceiveBlob`.  The receiver is returned as it was: the
source assigns to none of its fields. -/
def Storage.ReceiveBlob (s : Storage) (inner : InnerStore) (br : Ref)
    (source : List Byte) : ReceiveResult :=
  let limit := (s.maxSize % 2 ^ 64 + 2 ^ 64 - s.size % 2 ^ 64) % 2 ^ 64
  let handed := LimitReader source (int64 limit)
  let r := inner br handed
  let source1 := source.drop (min r.read handed.length)
  let sr := r.sr
  let err := r.err
  if sr.Size = limit ∨ sr.Size = 0 then
    let p := readOne source1
    if 0 < p.1 ∨ p.2 ≠ some Error.EOF then
      { store := s, sr := sr, err := some Error.ErrTooBig }
    else
      match err with
      | some e => { store := s, sr := sr, err := some e }
      | none => { store := s, sr := sr, err := none }
  else
    match err with
    | some e => { store := s, sr := sr, err := some e }
    | none => { store := s, sr := sr, err := none }

/-- An inner store that reads its reader to the end and reports the count, as
the in-memory store of the tests does for a blob it accepts. -/
def acceptAll : InnerStore :=
  fun br bytes => { read := bytes.length, sr := { Ref := br, Size := bytes.length }, err := none }

/-- An inner store that fails at once with error `e`: it reads nothing and
returns the zero SizedRef. -/
def failAtOnce (e : Error) : InnerStore :=
  fun _ _ => { read := 0, sr := { Ref := ⟨0, 0, 0⟩, Size := 0 }, err := some e }

end limit

/-! ## float64 arithmetic of the size-weighted selector

`SelectBackend` converts `uint64` values to `float64`, divides two such values
and compares the quotients.  Every finite value that can arise is a
non-negative multiple of `2^(-128)`: a converted integer lies in `[1, 2^64]`
or is zero, and a quotient of two of them that is not zero is at least
`2^(-64)`, so that its unit in the last place is at least `2^(-116)`.  A finite
value `x` is therefore stored as the natural number `x * 2^128`, and rounding
to the 53-bit significand (to nearest, ties to even) is computed exactly.  No
operation of the function overflows or produces a subnormal number.
-/

namespace shard

/-- The scaling factor of the stored finite values. -/
def scale : Nat := 2 ^ 128

/-- The rational `num / den` rounded to a 53-bit significand, to nearest with
ties going to the even significand (IEEE 754 roundTiesToEven).  The result is
an integer, so the function is exact for quotients that are zero or at least
`2^52`, where the unit in the last place `ulp` is at least one. -/
def roundNearestEven (num den : Nat) : Nat :=
  let ulp := 2 ^ (Nat.log2 (num / den) - 52)
  let m := num / (den * ulp)
  let r := num % (den * ulp)
  if den * ulp < 2 * r ∨ (2 * r = den * ulp ∧ m % 2 = 1) then (m + 1) * ulp else m * ulp

/-- The non-negative `float64` values: finite (scaled by `2^128`), `+Inf`, `NaN`. -/
inductive Float64
  | finite (scaled : Nat)
  | inf
  | nan
deriving DecidableEq

/-- The conversion `float64(n)` of a `uint64`. -/
def Float64.ofUint64 (n : Nat) : Float64 :=
  Float64.finite (roundNearestEven (n % 2 ^ 64 * scale) 1)

/-- The quotient `x / y` of IEEE 754: `0/0` and `Inf/Inf` are `NaN`, a positive
value over zero is `+Inf`. -/
def Float64.div : Float64 → Float64 → Float64
  | Float64.finite x, Float64.finite y =>
      if y = 0 then (if x = 0 then Float64.nan else Float64.inf)
      else Float64.finite (roundNearestEven (x * scale) y)
  | Float64.finite _, Float64.inf => Float64.finite 0
  | Float64.inf, Float64.finite _ => Float64.inf
  | Float64.inf, Float64.inf => Float64.nan
  | Float64.nan, _ => Float64.nan
  | _, Float64.nan => Float64.nan

/-- The comparison `x <= y` of IEEE 754: false when either side is `NaN`. -/
def Float64.le : Float64 → Float64 → Bool
  | Float64.finite x, Float64.finite y => decide (x ≤ y)
  | Float64.finite _, Float64.inf => true
  | Float64.inf, Float64.inf => true
  | Float64.inf, Float64.finite _ => false
  | Float64.nan, _ => false
  | _, Float64.nan => false

/-! ## Package shard -/

/-- The function `RegularBackendSelector`, applied to a ref: `none` is the
run-time panic of the integer division by zero. -/
def RegularBackendSelector {α : Type} (bs : List α) (b : Ref) : Option Nat :=
  let div := bs.length % 2 ^ 32
  if div = 0 then none else some (b.Sum32 % div)

/-- The type `SizeWeightedBackendSelector`. -/
abbrev SizeWeightedBackendSelector := List limit.Storage

/-- The constant `MaxUint64`. -/
def MaxUint64 : Nat := 2 ^ 64 - 1

/-- The method `totalCapacity`: the sum in `uint64` arithmetic. -/
def totalCapacity (s : SizeWeightedBackendSelector) : Nat :=
  s.foldl (fun total st => (total + st.Capacity) % 2 ^ 64) 0

/-- The loop of `SelectBackend` from index `i` on, with `end_` the cumulative
capacity so far; `none` is the panic after the loop. -/
def sweep (sumPct totalCap : Float64) : List limit.Storage → Nat → Nat → Option Nat
  | [], _, _ => none
  | st :: rest, i, end_ =>
      let end1 := (end_ + st.Capacity) % 2 ^ 64
      let capPct := (Float64.ofUint64 end1).div totalCap
      if sumPct.le capPct = true then some (i % 2 ^ 32)
      else sweep sumPct totalCap rest (i + 1) end1

/-- The method `SizeWeightedBackendSelector.SelectBackend`. -/
def SelectBackend (s : SizeWeightedBackendSelector) (b : Ref) : Option Nat :=
  let totalCap := Float64.ofUint64 (totalCapacity s)
  let sum := b.Sum64
  let sumPct := (Float64.ofUint64 sum).div (Float64.ofUint64 MaxUint64)
  sweep sumPct totalCap s 0 0

/-- The selector built by `NewSizeWeightedBackendSelectorWithLimits` once the
iteration order of the map is fixed: one `NewLimit` per capacity. -/
def NewSizeWeightedBackendSelectorWithLimits (caps : List Nat) : SizeWeightedBackendSelector :=
  caps.map limit.NewLimit

/-! ### Notions used to state the properties of the selector -/

/-- The value of `end` after iteration `k` of the loop of `SelectBackend`, when
the loop starts over `l` with `end = e`. -/
def endAfter (l : List limit.Storage) (e k : Nat) : Nat :=
  (l.take (k + 1)).foldl (fun total st => (total + st.Capacity) % 2 ^ 64) e

/-- The test of the loop of `SelectBackend` for a cumulative capacity `e`. -/
def hit (sumPct totalCap : Float64) (e : Nat) : Bool :=
  sumPct.le ((Float64.ofUint64 e).div totalCap)

/-- The value of `sumPct` in `SelectBackend`. -/
def sumPctOf (b : Ref) : Float64 :=
  (Float64.ofUint64 b.Sum64).div (Float64.ofUint64 MaxUint64)

/-- The value of `capPct` in iteration `i` of the loop of `SelectBackend`. -/
def capPctAt (s : SizeWeightedBackendSelector) (i : Nat) : Float64 :=
  (Float64.ofUint64 (totalCapacity (s.take (i + 1)))).div (Float64.ofUint64 (totalCapacity s))

end shard

/-! ## Packages lru and stats, as far as the proxy cache uses them -/

namespace lru

/-- Modelled from the spec: package lru is not among the sources.  The spec
describes the LRU index as an ordered mapping from ref-string to cache entry
whose front is the most recent entry; `lru.New(0)` is taken to be unbounded,
as the eviction test requires.  The list is kept front first. -/
structure Cache (V : Type) where
  entries : List (Nat × V)

/-- Modelled from the spec: the constructor `lru.New(0)`, an empty index. -/
def New {V : Type} : Cache V := { entries := [] }

/-- Modelled from the spec: the lookup `Get`, the value and whether it was
found.  Every lookup in the proxy cache is followed by `Add` on the same key,
so that the position of the entry after the lookup does not matter. -/
def Cache.Get {V : Type} (c : Cache V) (key : Nat) : Option V :=
  (c.entries.find? (fun kv => kv.1 == key)).map (fun kv => kv.2)

/-- Modelled from the spec: the upsert `Add`, which puts the key at the front
with the new value. -/
def Cache.Add {V : Type} (c : Cache V) (key : Nat) (v : V) : Cache V :=
  { entries := (key, v) :: c.entries.filter (fun kv => kv.1 != key) }

/-- Modelled from the spec: `RemoveOldest` takes the entry at the back; on an
empty index it returns the zero key and a nil value, here `none`. -/
def Cache.RemoveOldest {V : Type} (c : Cache V) : Option (Nat × V) × Cache V :=
  match c.entries.getLast? with
  | none => (none, c)
  | some kv => (some kv, { entries := c.entries.dropLast })

end lru

namespace stats

/-- Modelled from the spec: the struct stats.Receiver is not among the sources.
The spec describes it as a mapping from blob ref to size. -/
structure Receiver where
  sizes : List (Ref × Int)

/-- Modelled from the spec: `ReceiveRef` records the ref with its size. -/
def Receiver.ReceiveRef (r : Receiver) (br : Ref) (size : Int) : Receiver :=
  { sizes := (br, size) :: r.sizes.filter (fun p => p.1 != br) }

/-- Modelled from the spec: `RemoveBlobs` forgets the refs. -/
def Receiver.RemoveBlobs (r : Receiver) (refs : List Ref) : Receiver :=
  { sizes := r.sizes.filter (fun p => !(refs.contains p.1)) }

/-- Modelled from the spec: the size recorded for a ref, if any, which is what
`StatBlobs` of the receiver reports for it. -/
def Receiver.stat (r : Receiver) (br : Ref) : Option Int :=
  (r.sizes.find? (fun p => p.1 == br)).map (fun p => p.2)

end stats

/-! ## Package proxycache -/

namespace proxycache

/-- Arithmetic of `int64`: the representative in `[-2^63, 2^63)`. -/
def wrapInt64 (x : Int) : Int := (x + 2 ^ 63) % 2 ^ 64 - 2 ^ 63

/-- The struct `cacheEntry`; its `modtime` field, which is written with the
current time and never read, is left out. -/
structure cacheEntry where
  sb : SizedRef
  statOnly : Bool
deriving DecidableEq

/-- The struct `sto`: the fields the touch and eviction code reads or writes.
The two backends are outside; what they answer is an argument of the
functions that call them. -/
structure sto where
  statsCache : stats.Receiver
  lru : lru.Cache cacheEntry
  maxCacheBytes : Int
  isCleaning : Bool
  cacheBytes : Int

/-- The constructor `NewCache`. -/
def NewCache (maxBytes : Int) : sto :=
  { statsCache := { sizes := [] }, lru := lru.New, maxCacheBytes := maxBytes,
    isCleaning := false, cacheBytes := 0 }

/-- The method `needsRemoval`. -/
def sto.needsRemoval (s : sto) : Bool := decide (s.maxCacheBytes < s.cacheBytes)

/-- The method `removeOldest`, given what `cache.RemoveBlobs` and
`statsCache.RemoveBlobs` return; `none` is the panic of the type assertion on
the nil value of an empty LRU. -/
def sto.removeOldest (s : sto) (cacheErr statsErr : Option Error) : Option sto :=
  match s.lru.RemoveOldest with
  | (none, _) => none
  | (some (k, entry), lru1) =>
      match cacheErr with
      | some _ => some { s with lru := lru1.Add k entry }
      | none =>
          match statsErr with
          | some _ => some { s with lru := lru1 }
          | none =>
              some { s with
                lru := lru1
                statsCache := s.statsCache.RemoveBlobs [entry.sb.Ref]
                cacheBytes := wrapInt64 (s.cacheBytes - (entry.sb.Size : Int)) }

/-- The method `touchStat` up to its call of `cleanCache`, which only starts
the cleaner. -/
def sto.touchStat (s : sto) (sb : SizedRef) : sto :=
  let key := sb.Ref.key
  let old := (s.lru.Get key).isSome
  let lru1 := s.lru.Add key { sb := sb, statOnly := true }
  if !old then
    { s with lru := lru1, statsCache := s.statsCache.ReceiveRef sb.Ref (sb.Size : Int) }
  else
    { s with lru := lru1 }

/-- The method `touchBlob` up to the `touchStat` it spawns and its call of
`cleanCache`. -/
def sto.touchBlob (s : sto) (sb : SizedRef) : sto :=
  let key := sb.Ref.key
  let old := (s.lru.Get key).isSome
  let lru1 := s.lru.Add key { sb := sb, statOnly := false }
  if !old then
    { s with lru := lru1, cacheBytes := wrapInt64 (s.cacheBytes + (sb.Size : Int)) }
  else
    { s with lru := lru1 }

/-- The sum of the sizes of the LRU entries whose `statOnly` flag is false. -/
def sto.blobBytes (s : sto) : Int :=
  ((s.lru.entries.filter (fun kv => !kv.2.statOnly)).map (fun kv => (kv.2.sb.Size : Int))).sum

/-- The engine states reached from `NewCache maxBytes` by touches and cleaner
eviction steps, each run to completion before the next starts. -/
inductive Reachable (maxBytes : Int) : sto → Prop
  | init : Reachable maxBytes (NewCache maxBytes)
  | touchBlob (s : sto) (sb : SizedRef) :
      Reachable maxBytes s → Reachable maxBytes ((s.touchBlob sb).touchStat sb)
  | touchStat (s : sto) (sb : SizedRef) :
      Reachable maxBytes s → Reachable maxBytes (s.touchStat sb)
  | evict (s s1 : sto) (cacheErr statsErr : Option Error) :
      Reachable maxBytes s → s.needsRemoval = true →
      s.removeOldest cacheErr statsErr = some s1 → Reachable maxBytes s1

/-! ### The cleaner -/

/-- How a pass of the cleaner stands: it finished in a state after so many
eviction attempts, it panicked in `removeOldest`, or it is still in its loop
when the steps allotted to the run are used up. -/
inductive CleanOutcome
  | finished (s : sto) (attempts : Nat)
  | panicked
  | running (s : sto)

/-- The loop `for sto.needsRemoval() { sto.removeOldest() }` of `cleanCache`,
run for at most `fuel` iterations; `answers i` is what `cache.RemoveBlobs` and
`statsCache.RemoveBlobs` return in attempt `i`. -/
def sto.cleanLoop : Nat → sto → (Nat → Option Error × Option Error) → Nat → CleanOutcome
  | 0, s, _, i => if s.needsRemoval = true then CleanOutcome.running s else CleanOutcome.finished s i
  | fuel + 1, s, answers, i =>
      if s.needsRemoval = true then
        match s.removeOldest (answers i).1 (answers i).2 with
        | none => CleanOutcome.panicked
        | some s1 => sto.cleanLoop fuel s1 answers (i + 1)
      else CleanOutcome.finished s i

/-- The goroutine of the method `cleanCache`: it returns at once when a pass is
running, else it sets `isCleaning`, runs the loop and clears `isCleaning` on
the way out.  The field `lastCleanFinished`, which is never read, is left
out. -/
def sto.cleanCache (fuel : Nat) (s : sto) (answers : Nat → Option Error × Option Error) :
    CleanOutcome :=
  if s.isCleaning = true then CleanOutcome.finished s 0
  else
    match sto.cleanLoop fuel { s with isCleaning := true } answers 0 with
    | CleanOutcome.finished s1 n => CleanOutcome.finished { s1 with isCleaning := false } n
    | CleanOutcome.panicked => CleanOutcome.panicked
    | CleanOutcome.running s1 => CleanOutcome.running s1

/-- The engine states reached from `NewCache maxBytes` by touches and cleaner
eviction steps run one at a time, when every touch of a ref carries the size
`size key` of that ref and the removals from the cache and from the stats
receiver succeed. -/
inductive ReachableSized (size : Nat → Nat) (maxBytes : Int) : sto → Prop
  | init : ReachableSized size maxBytes (NewCache maxBytes)
  | touchBlob (s : sto) (r : Ref) :
      ReachableSized size maxBytes s →
      ReachableSized size maxBytes
        ((s.touchBlob { Ref := r, Size := size r.key }).touchStat { Ref := r, Size := size r.key })
  | touchStat (s : sto) (r : Ref) :
      ReachableSized size maxBytes s →
      ReachableSized size maxBytes (s.touchStat { Ref := r, Size := size r.key })
  | evict (s s1 : sto) :
      ReachableSized size maxBytes s → s.needsRemoval = true →
      s.removeOldest none none = some s1 → ReachableSized size maxBytes s1

/-! ### Fetch and ReceiveBlob -/

/-- What the `Fetch` of a backend returns: the reader (`none` is nil), the size
and the error. -/
structure FetchAnswer where
  rc : Option (List Byte)
  size : Nat
  err : Option Error
deriving DecidableEq

/-- What `sto.Fetch` returns and leaves behind: the three results, the engine
after the synchronous part, and the blob that the goroutine it starts will
write to the cache (ref, bytes and size of the later `touchBlob`), if any. -/
structure FetchOutcome where
  rc : Option (List Byte)
  size : Nat
  err : Option Error
  store : sto
  background : Option (Ref × List Byte × Nat)

/-- The method `sto.Fetch`, given what `cache.Fetch` and `origin.Fetch` return;
the readers are in memory, so that `ioutil.ReadAll` returns their bytes and no
error.  `none` is the panic of `ReadAll` on a nil reader. -/
def sto.Fetch (s : sto) (b : Ref) (cacheAns originAns : FetchAnswer) : Option FetchOutcome :=
  match cacheAns.err with
  | none =>
      some { rc := cacheAns.rc, size := cacheAns.size, err := none,
             store := s.touchBlob { Ref := b, Size := cacheAns.size }, background := none }
  | some _ =>
      match originAns.err with
      | some e =>
          some { rc := originAns.rc, size := originAns.size, err := some e,
                 store := s, background := none }
      | none =>
          match originAns.rc with
          | none => none
          | some all =>
              some { rc := some all, size := originAns.size, err := none,
                     store := s, background := some (b, all, originAns.size) }

/-- What the `ReceiveBlob` of a backend, and of the engine, returns. -/
structure ReceiveAnswer where
  sb : SizedRef
  err : Option Error
deriving DecidableEq

/-- The method `sto.ReceiveBlob`, given the error of `io.Copy` and what
`cache.ReceiveBlob` and `origin.ReceiveBlob` return; the result `sb` keeps its
zero value on the two early returns. -/
def sto.ReceiveBlob (s : sto) (copyErr : Option Error) (cacheAns originAns : ReceiveAnswer) :
    ReceiveAnswer × sto :=
  match copyErr with
  | some e => ({ sb := { Ref := ⟨0, 0, 0⟩, Size := 0 }, err := some e }, s)
  | none =>
      match cacheAns.err with
      | some e => ({ sb := { Ref := ⟨0, 0, 0⟩, Size := 0 }, err := some e }, s)
      | none =>
          match originAns.err with
          | none => ({ sb := originAns.sb, err := none }, s.touchBlob originAns.sb)
          | some e => ({ sb := originAns.sb, err := some e }, s)

/-- Modelled from the spec: a backend of the blob storage interface of section
6 that behaves as a map from ref to bytes and whose writes succeed; the
backends themselves are not among the sources. -/
structure MapStorage where
  blobs : List (Ref × List Byte)

/-- Modelled from the spec: `Fetch` of a map backend returns the bytes stored
for the ref and their length, or the not-found error and no reader. -/
def MapStorage.Fetch (m : MapStorage) (b : Ref) : FetchAnswer :=
  match m.blobs.find? (fun p => p.1 == b) with
  | some p => { rc := some p.2, size := p.2.length, err := none }
  | none => { rc := none, size := 0, err := some Error.ErrNotExist }

/-- Modelled from the spec: `ReceiveBlob` of a map backend stores the bytes
under the ref and returns the ref with their length. -/
def MapStorage.ReceiveBlob (m : MapStorage) (b : Ref) (bytes : List Byte) :
    ReceiveAnswer × MapStorage :=
  ({ sb := { Ref := b, Size := bytes.length }, err := none },
   { blobs := (b, bytes) :: m.blobs.filter (fun p => p.1 != b) })

/-- Modelled from the spec: `RemoveBlobs` of a map backend forgets the refs and
returns no error. -/
def MapStorage.RemoveBlobs (m : MapStorage) (refs : List Ref) : Option Error × MapStorage :=
  (none, { blobs := m.blobs.filter (fun p => !(refs.contains p.1)) })

/-- The engine together with two map backends. -/
structure Engine where
  cache : MapStorage
  origin : MapStorage
  store : sto

/-- The method `sto.ReceiveBlob` over map backends, whose writes do not fail,
so that the origin is written after the cache. -/
def Engine.ReceiveBlob (e : Engine) (br : Ref) (src : List Byte) : ReceiveAnswer × Engine :=
  let c := e.cache.ReceiveBlob br src
  let o := e.origin.ReceiveBlob br src
  let r := e.store.ReceiveBlob none c.1 o.1
  (r.1, { cache := c.2, origin := o.2, store := r.2 })

/-- The method `sto.Fetch` over map backends: the results and the engine after
the synchronous part. -/
def Engine.Fetch (e : Engine) (b : Ref) : Option (FetchAnswer × Engine) :=
  (e.store.Fetch b (e.cache.Fetch b) (e.origin.Fetch b)).map
    (fun out => ({ rc := out.rc, size := out.size, err := out.err }, { e with store := out.store }))

/-- The method `removeOldest` over map backends: `cache.RemoveBlobs` is asked to
forget the ref of the oldest entry. -/
def Engine.removeOldest (e : Engine) : Option Engine :=
  match e.store.lru.RemoveOldest with
  | (none, _) => none
  | (some (_, entry), _) =>
      let c := e.cache.RemoveBlobs [entry.sb.Ref]
      (e.store.removeOldest c.1 none).map (fun s1 => { e with cache := c.2, store := s1 })

/-- The engines reached from `e` by eviction steps of the cleaner. -/
inductive Evicted (e : Engine) : Engine → Prop
  | refl : Evicted e e
  | step (e1 e2 : Engine) :
      Evicted e e1 → e1.store.needsRemoval = true → e1.removeOldest = some e2 → Evicted e e2

/-! ### The consumer of StatBlobs -/

/-- What the `select` of the consumer receives: a sized ref or the close of one
of its two channels. -/
inductive Event
  | hit (sb : SizedRef)
  | hitsClosed
  | miss (sb : SizedRef)
  | missesClosed
deriving DecidableEq

/-- The error "unexpected end of blob stats: couldn't find all the stats". -/
def errEndOfStats : Error := Error.other 0

/-- How the consumer goroutine of `StatBlobs` stands after a trace: it returned
an error value (`none` is nil), or it is blocked in its `select`. -/
inductive ConsumerOutcome
  | returned (err : Option Error) (dest : List SizedRef) (store : sto)
  | blocked (dest : List SizedRef) (store : sto)

/-- The sized refs written to the destination channel. -/
def ConsumerOutcome.dest : ConsumerOutcome → List SizedRef
  | ConsumerOutcome.returned _ d _ => d
  | ConsumerOutcome.blocked d _ => d

/-- The variables of the consumer: the keys of `seenBlobs` in the order they
were added, what was sent to `dest`, and the engine. -/
structure ConsumerState where
  seen : List Ref
  dest : List SizedRef
  store : sto

/-- The part `if sb.Valid() { ... }` of the loop body; `valid` is the method
`SizedRef.Valid`. -/
def receiveValue (valid : SizedRef → Bool) (st : ConsumerState) (sb : SizedRef) : ConsumerState :=
  if valid sb = true then
    if st.seen.contains sb.Ref = true then
      { st with store := st.store.touchStat sb }
    else
      { seen := st.seen ++ [sb.Ref], dest := st.dest ++ [sb], store := st.store.touchStat sb }
  else st

/-- The loop of the consumer goroutine of `StatBlobs` over the events that its
`select` receives, in order; `n` is `len(blobs)`, `hitsOpen` and `missesOpen`
tell whether `cacheHits` and `cacheMisses` are not nil yet.  A `select` over
two nil channels, or with nothing more to receive, blocks. -/
def consumerLoop (n : Nat) (valid : SizedRef → Bool) :
    List Event → Bool → Bool → ConsumerState → ConsumerOutcome
  | [], _, _, st => ConsumerOutcome.blocked st.dest st.store
  | ev :: rest, hitsOpen, missesOpen, st =>
      if hitsOpen = false ∧ missesOpen = false then ConsumerOutcome.blocked st.dest st.store
      else
        match ev with
        | Event.hit sb =>
            if hitsOpen = true then
              let moreHits := true
              let moreMisses := false
              let st1 := receiveValue valid st sb
              if st1.seen.length = n then ConsumerOutcome.returned none st1.dest st1.store
              else if moreHits = false ∧ moreMisses = false then
                ConsumerOutcome.returned (some errEndOfStats) st1.dest st1.store
              else consumerLoop n valid rest hitsOpen missesOpen st1
            else consumerLoop n valid rest hitsOpen missesOpen st
        | Event.hitsClosed => consumerLoop n valid rest false missesOpen st
        | Event.miss sb =>
            if missesOpen = true then
              let moreHits := false
              let moreMisses := true
              let st1 := receiveValue valid st sb
              if st1.seen.length = n then ConsumerOutcome.returned none st1.dest st1.store
              else if moreHits = false ∧ moreMisses = false then
                ConsumerOutcome.returned (some errEndOfStats) st1.dest st1.store
              else consumerLoop n valid rest hitsOpen missesOpen st1
            else consumerLoop n valid rest hitsOpen missesOpen st
        | Event.missesClosed => consumerLoop n valid rest hitsOpen false st

/-- The consumer goroutine of `sto.StatBlobs` for the request `blobs`. -/
def sto.statConsumer (s : sto) (blobs : List Ref) (valid : SizedRef → Bool)
    (events : List Event) : ConsumerOutcome :=
  consumerLoop blobs.length valid events true true { seen := [], dest := [], store := s }

/-- The merged input of the consumer: the sized refs of a trace that arrive on
a channel that is not closed yet, in arrival order. -/
def received : List Event → Bool → Bool → List SizedRef
  | [], _, _ => []
  | Event.hit sb :: rest, h, m => if h = true then sb :: received rest h m else received rest h m
  | Event.hitsClosed :: rest, _, m => received rest false m
  | Event.miss sb :: rest, h, m => if m = true then sb :: received rest h m else received rest h m
  | Event.missesClosed :: rest, h, _ => received rest h false

/-- The first occurrence of each valid sized ref of a list whose ref is not in
`seen`, in the order of the list. -/
def firstOccurrences (valid : SizedRef → Bool) : List SizedRef → List Ref → List SizedRef
  | [], _ => []
  | sb :: rest, seen =>
      if valid sb = true ∧ seen.contains sb.Ref = false then
        sb :: firstOccurrences valid rest (seen ++ [sb.Ref])
      else firstOccurrences valid rest seen

/-! ### The byte accounting -/

/-- The sum of the sizes of the entries of an LRU. -/
def lruBytes (l : List (Nat × cacheEntry)) : Int :=
  (l.map (fun kv => (kv.2.sb.Size : Int))).sum

/-- The invariant of the byte accounting when every ref has one size: the LRU
holds each key once, every entry carries the size of its key, and `cacheBytes`
is an `int64` that is at most the sum of the sizes of the LRU entries. -/
def Accounted (size : Nat → Nat) (s : sto) : Prop :=
  (s.lru.entries.map Prod.fst).Nodup ∧
    (∀ kv, kv ∈ s.lru.entries → kv.2.sb.Size = size kv.1) ∧
    s.cacheBytes ≤ lruBytes s.lru.entries ∧
    -2 ^ 63 ≤ s.cacheBytes ∧ s.cacheBytes < 2 ^ 63

end proxycache

/-! ## Theorems: package limit -/

namespace limit

/-- `Available` is a `uint64`. -/
theorem available_lt (s : Storage) : s.Available < 2 ^ 64 := by
  unfold Storage.Available; exact Nat.mod_lt _ (by norm_num)

/-- Below `2^63` the conversion to `int64` keeps the value. -/
theorem int64_toNat_small (x : Nat) (h : x < 2 ^ 63) : (int64 x).toNat = x := by
  have h1 : x % 2 ^ 64 = x := Nat.mod_eq_of_lt (by omega)
  unfold int64
  rw [h1, if_pos h]
  simp

/-- From `2^63` on the conversion to `int64` is negative. -/
theorem int64_toNat_big (x : Nat) (h1 : 2 ^ 63 ≤ x) (h2 : x < 2 ^ 64) : (int64 x).toNat = 0 := by
  have h3 : x % 2 ^ 64 = x := Nat.mod_eq_of_lt h2
  unfold int64
  rw [h3, if_neg (by omega)]
  omega

/-- A reader with bytes left delivers one. -/
theorem readOne_of_ne_nil (l : List Byte) (h : l ≠ []) : readOne l = (1, none) := by
  cases l with
  | nil => exact absurd rfl h
  | cons a t => rfl

/-- Claim C1.  For every byte-limited store and every blob whose length exceeds
`Available()`, if the inner store reads the reader it is handed to the end and
reports the number of bytes it read as the size, then `ReceiveBlob` returns
`ErrTooBig`. -/
theorem receiveBlob_too_big (s : Storage) (inner : InnerStore) (br : Ref) (source : List Byte)
    (hbig : s.Available < source.length)
    (hread : (inner br (LimitReader source (int64 s.Available))).read
      = (LimitReader source (int64 s.Available)).length)
    (hsize : (inner br (LimitReader source (int64 s.Available))).sr.Size
      = (inner br (LimitReader source (int64 s.Available))).read) :
    (s.ReceiveBlob inner br source).err = some Error.ErrTooBig := by
  have hav := available_lt s
  have hlen : (LimitReader source (int64 s.Available)).length = (int64 s.Available).toNat ⊓ source.length := by
    simp [LimitReader, List.length_take]
  have hcases : ((inner br (LimitReader source (int64 s.Available))).sr.Size = s.Available ∨
      (inner br (LimitReader source (int64 s.Available))).sr.Size = 0) ∧
      source.drop (min (inner br (LimitReader source (int64 s.Available))).read
        (LimitReader source (int64 s.Available)).length) ≠ [] := by
    rw [hsize, hread, hlen]
    by_cases h63 : s.Available < 2 ^ 63
    · rw [int64_toNat_small _ h63]
      have : s.Available ⊓ source.length = s.Available := by omega
      rw [this]
      refine ⟨Or.inl rfl, ?_⟩
      intro h
      have := congrArg List.length h
      simp at this
      omega
    · rw [int64_toNat_big _ (by omega) hav]
      have h0 : 0 ⊓ source.length = 0 := Nat.zero_min _
      rw [h0]
      refine ⟨Or.inr rfl, ?_⟩
      intro h
      have := congrArg List.length h
      simp only [List.length_drop, List.length_nil, Nat.min_self, Nat.sub_zero] at this
      omega
  unfold Storage.ReceiveBlob
  unfold Storage.Available at hcases
  simp only []
  rw [if_pos hcases.1, readOne_of_ne_nil _ hcases.2]
  simp

/-- Claim C1 at the store and the blob of `TestLimitStorage`: capacity 10 and a
blob of 40 bytes. -/
theorem receiveBlob_too_big_witness :
    (Storage.ReceiveBlob ⟨10, 0⟩ acceptAll ⟨7, 0, 0⟩ (List.replicate 40 98)).err
      = some Error.ErrTooBig :=
  receiveBlob_too_big ⟨10, 0⟩ acceptAll ⟨7, 0, 0⟩ (List.replicate 40 98) (by decide) rfl rfl

/-- Below `2^63` available bytes a blob that fits is admitted with its length as
size, when the inner store reads it to the end, reports the count and returns
no error. -/
theorem receiveBlob_fits (s : Storage) (inner : InnerStore) (br : Ref) (source : List Byte)
    (hfit : source.length ≤ s.Available) (h63 : s.Available < 2 ^ 63)
    (hread : (inner br (LimitReader source (int64 s.Available))).read
      = (LimitReader source (int64 s.Available)).length)
    (hsize : (inner br (LimitReader source (int64 s.Available))).sr.Size
      = (inner br (LimitReader source (int64 s.Available))).read)
    (herr : (inner br (LimitReader source (int64 s.Available))).err = none) :
    (s.ReceiveBlob inner br source).err = none ∧
      (s.ReceiveBlob inner br source).sr.Size = source.length := by
  have hlen : (LimitReader source (int64 s.Available)).length = source.length := by
    simp only [LimitReader, List.length_take, int64_toNat_small _ h63]
    omega
  have hdrop : source.drop (min (inner br (LimitReader source (int64 s.Available))).read
        (LimitReader source (int64 s.Available)).length) = [] := by
    rw [hread, hlen]
    simp
  have hsz : (inner br (LimitReader source (int64 s.Available))).sr.Size = source.length := by
    rw [hsize, hread, hlen]
  unfold Storage.ReceiveBlob
  unfold Storage.Available at hdrop hsz herr
  simp only []
  rw [hdrop, herr]
  simp only [readOne]
  split
  · rw [if_neg (by simp)]
    exact ⟨rfl, hsz⟩
  · exact ⟨rfl, hsz⟩

/-- The method `ReceiveBlob` leaves the receiver as it was. -/
theorem receiveBlob_store (s : Storage) (inner : InnerStore) (br : Ref) (source : List Byte) :
    (s.ReceiveBlob inner br source).store = s := by
  unfold Storage.ReceiveBlob
  simp only []
  split
  · split
    · rfl
    · split <;> rfl
  · split <;> rfl

/-- Claim C2, the code at the failing input.  A store of capacity `2^63` has
`2^63` bytes available; `int64(limit)` is then negative, the limited reader
delivers nothing to the inner store, which accepts the empty input, and the
probe finds the single byte of the blob: `ReceiveBlob` returns `ErrTooBig` for
a blob of one byte. -/
theorem receiveBlob_huge_capacity_rejects_one_byte :
    [97].length ≤ (NewLimit (2 ^ 63)).Available ∧
      (acceptAll ⟨7, 0, 0⟩ []).err = none ∧
      ((NewLimit (2 ^ 63)).ReceiveBlob acceptAll ⟨7, 0, 0⟩ [97]).err = some Error.ErrTooBig := by
  decide

/-- Claim C3, the code at the failing input.  A store of capacity 10 receives a
blob of one byte with success and size 1; `Consumed()` is 0 before and 0
after the call, and `Available()` is still 10. -/
theorem receiveBlob_success_leaves_consumed :
    ((NewLimit 10).ReceiveBlob acceptAll ⟨7, 0, 0⟩ [97]).err = none ∧
      ((NewLimit 10).ReceiveBlob acceptAll ⟨7, 0, 0⟩ [97]).sr.Size = 1 ∧
      (NewLimit 10).Consumed = 0 ∧
      ((NewLimit 10).ReceiveBlob acceptAll ⟨7, 0, 0⟩ [97]).store.Consumed = 0 ∧
      ((NewLimit 10).ReceiveBlob acceptAll ⟨7, 0, 0⟩ [97]).store.Available = 10 := by
  decide

/-- Claim C4, the code at the failing input.  With capacity 10 and a blob of one
byte, an inner store that fails at once with an error of its own makes
`ReceiveBlob` return `ErrTooBig`, not that error: the size 0 of the returned
SizedRef triggers the probe, which finds the unread byte. -/
theorem receiveBlob_inner_error_masked :
    [97].length ≤ (NewLimit 10).Available ∧
      (failAtOnce (Error.other 1) ⟨7, 0, 0⟩ [97]).err = some (Error.other 1) ∧
      ((NewLimit 10).ReceiveBlob (failAtOnce (Error.other 1)) ⟨7, 0, 0⟩ [97]).err
        = some Error.ErrTooBig := by
  decide

end limit

/-! ## Theorems: float64 rounding and the shard selectors -/

namespace shard

theorem log2_mono {a b : Nat} (h : a ≤ b) : Nat.log2 a ≤ Nat.log2 b := by
  by_cases ha : a = 0
  · subst ha
    have : Nat.log2 0 = 0 := Nat.log2_zero
    omega
  · have hb : b ≠ 0 := by omega
    by_contra hlt
    have h1 : b < 2 ^ Nat.log2 a := (Nat.log2_lt hb).1 (by omega)
    have h2 := Nat.log2_self_le ha
    omega

theorem log2_eq_of_bounds {n k : Nat} (h1 : 2 ^ k ≤ n) (h2 : n < 2 ^ (k + 1)) :
    Nat.log2 n = k := by
  have hn : n ≠ 0 := by
    have : 0 < 2 ^ k := Nat.pos_pow_of_pos _ (by norm_num)
    omega
  have hlt : Nat.log2 n < k + 1 := (Nat.log2_lt hn).2 h2
  have hge : ¬ Nat.log2 n < k := fun h => by
    have := (Nat.log2_lt hn).1 h
    omega
  omega

theorem div_pow_lt (q : Nat) : q / 2 ^ (Nat.log2 q - 52) < 2 ^ 53 := by
  have h := @Nat.lt_log2_self q
  rw [Nat.div_lt_iff_lt_mul (Nat.pos_pow_of_pos _ (by norm_num)), ← pow_add]
  refine lt_of_lt_of_le h (Nat.pow_le_pow_right (by norm_num) (by omega))

theorem le_div_pow (q : Nat) (h : 0 < Nat.log2 q - 52) : 2 ^ 52 ≤ q / 2 ^ (Nat.log2 q - 52) := by
  have hq : q ≠ 0 := by
    intro h0
    subst h0
    have : Nat.log2 0 = 0 := Nat.log2_zero
    omega
  have h1 := Nat.log2_self_le hq
  rw [Nat.le_div_iff_mul_le (Nat.pos_pow_of_pos _ (by norm_num)), ← pow_add]
  have : 52 + (Nat.log2 q - 52) = Nat.log2 q := by omega
  rw [this]
  exact h1

theorem roundNearestEven_ge (num den : Nat) :
    num / (den * 2 ^ (Nat.log2 (num / den) - 52)) * 2 ^ (Nat.log2 (num / den) - 52)
      ≤ roundNearestEven num den := by
  unfold roundNearestEven
  simp only []
  split
  · exact Nat.mul_le_mul_right _ (Nat.le_succ _)
  · exact Nat.le_refl _

theorem roundNearestEven_le (num den : Nat) :
    roundNearestEven num den
      ≤ (num / (den * 2 ^ (Nat.log2 (num / den) - 52)) + 1) * 2 ^ (Nat.log2 (num / den) - 52) := by
  unfold roundNearestEven
  simp only []
  split
  · exact Nat.le_refl _
  · exact Nat.mul_le_mul_right _ (Nat.le_succ _)

/-- Rounding at a fixed exponent is monotone in the numerator. -/
theorem round_step_mono (U ulp a b : Nat) (hab : a ≤ b) :
    (if U < 2 * (a % U) ∨ (2 * (a % U) = U ∧ a / U % 2 = 1) then (a / U + 1) * ulp
      else a / U * ulp)
    ≤ (if U < 2 * (b % U) ∨ (2 * (b % U) = U ∧ b / U % 2 = 1) then (b / U + 1) * ulp
      else b / U * ulp) := by
  have hm : a / U ≤ b / U := Nat.div_le_div_right hab
  have ha := Nat.div_add_mod a U
  have hb := Nat.div_add_mod b U
  rcases Nat.lt_or_ge (a / U) (b / U) with hlt | hge
  · have h1 : (a / U + 1) * ulp ≤ b / U * ulp := Nat.mul_le_mul_right _ hlt
    have h2 : a / U * ulp ≤ (a / U + 1) * ulp := Nat.mul_le_mul_right _ (Nat.le_succ _)
    have h3 : b / U * ulp ≤ (b / U + 1) * ulp := Nat.mul_le_mul_right _ (Nat.le_succ _)
    split <;> split <;> omega
  · have heq : a / U = b / U := Nat.le_antisymm hm hge
    have hr : a % U ≤ b % U := by
      rw [heq] at ha
      have : U * (b / U) + a % U ≤ U * (b / U) + b % U := by omega
      omega
    rw [heq]
    have h3 : b / U * ulp ≤ (b / U + 1) * ulp := Nat.mul_le_mul_right _ (Nat.le_succ _)
    by_cases hc : U < 2 * (a % U) ∨ (2 * (a % U) = U ∧ b / U % 2 = 1)
    · have hc2 : U < 2 * (b % U) ∨ (2 * (b % U) = U ∧ b / U % 2 = 1) := by
        rcases hc with h | ⟨h, hodd⟩
        · exact Or.inl (by omega)
        · rcases Nat.lt_or_ge (a % U) (b % U) with h5 | h5
          · exact Or.inl (by omega)
          · exact Or.inr ⟨by omega, hodd⟩
      rw [if_pos hc, if_pos hc2]
    · rw [if_neg hc]
      split
      · exact h3
      · exact Nat.le_refl _

theorem roundNearestEven_mono_num (den a b : Nat) (hab : a ≤ b) :
    roundNearestEven a den ≤ roundNearestEven b den := by
  have hq : a / den ≤ b / den := Nat.div_le_div_right hab
  have he : Nat.log2 (a / den) - 52 ≤ Nat.log2 (b / den) - 52 :=
    Nat.sub_le_sub_right (log2_mono hq) 52
  rcases Nat.lt_or_ge (Nat.log2 (a / den) - 52) (Nat.log2 (b / den) - 52) with hlt | hge
  · -- different binades
    have h1 := roundNearestEven_le a den
    have h2 := roundNearestEven_ge b den
    have hma : a / (den * 2 ^ (Nat.log2 (a / den) - 52)) < 2 ^ 53 := by
      rw [← Nat.div_div_eq_div_mul]
      exact div_pow_lt _
    have hmb : 2 ^ 52 ≤ b / (den * 2 ^ (Nat.log2 (b / den) - 52)) := by
      rw [← Nat.div_div_eq_div_mul]
      exact le_div_pow _ (by omega)
    have h3 : (a / (den * 2 ^ (Nat.log2 (a / den) - 52)) + 1) * 2 ^ (Nat.log2 (a / den) - 52)
        ≤ 2 ^ 53 * 2 ^ (Nat.log2 (a / den) - 52) := Nat.mul_le_mul_right _ hma
    have h4 : 2 ^ 52 * 2 ^ (Nat.log2 (b / den) - 52)
        ≤ b / (den * 2 ^ (Nat.log2 (b / den) - 52)) * 2 ^ (Nat.log2 (b / den) - 52) :=
      Nat.mul_le_mul_right _ hmb
    have h5 : 2 ^ 53 * 2 ^ (Nat.log2 (a / den) - 52) ≤ 2 ^ 52 * 2 ^ (Nat.log2 (b / den) - 52) := by
      rw [← pow_add, ← pow_add]
      exact Nat.pow_le_pow_right (by norm_num) (by omega)
    omega
  · have heq : Nat.log2 (a / den) - 52 = Nat.log2 (b / den) - 52 := Nat.le_antisymm he hge
    unfold roundNearestEven
    simp only []
    rw [heq]
    exact round_step_mono _ _ a b hab

theorem roundNearestEven_scale (k num den : Nat) (hk : 0 < k) :
    roundNearestEven (k * num) (k * den) = roundNearestEven num den := by
  unfold roundNearestEven
  simp only []
  rw [Nat.mul_div_mul_left _ _ hk, Nat.mul_assoc, Nat.mul_div_mul_left _ _ hk,
    Nat.mul_mod_mul_left]
  have h1 : (k * (den * 2 ^ (Nat.log2 (num / den) - 52))
        < 2 * (k * (num % (den * 2 ^ (Nat.log2 (num / den) - 52)))))
      ↔ (den * 2 ^ (Nat.log2 (num / den) - 52)
        < 2 * (num % (den * 2 ^ (Nat.log2 (num / den) - 52)))) := by
    rw [Nat.mul_left_comm 2 k]
    exact Nat.mul_lt_mul_left hk
  have h2 : (2 * (k * (num % (den * 2 ^ (Nat.log2 (num / den) - 52))))
        = k * (den * 2 ^ (Nat.log2 (num / den) - 52)))
      ↔ (2 * (num % (den * 2 ^ (Nat.log2 (num / den) - 52)))
        = den * 2 ^ (Nat.log2 (num / den) - 52)) := by
    rw [Nat.mul_left_comm 2 k]
    exact Nat.mul_right_inj (by omega)
  simp only [h1, h2]

/-- Rounding is monotone in the rational it rounds. -/
theorem roundNearestEven_mono (a b c d : Nat) (hb : 0 < b) (hd : 0 < d) (h : a * d ≤ c * b) :
    roundNearestEven a b ≤ roundNearestEven c d := by
  rw [← roundNearestEven_scale d a b hd, ← roundNearestEven_scale b c d hb, Nat.mul_comm d b]
  exact roundNearestEven_mono_num _ _ _ (by
    rw [Nat.mul_comm d a, Nat.mul_comm b c]; exact h)

/-- Evaluation of the rounding once the binade of the quotient is known. -/
theorem roundNearestEven_eval (num den k : Nat) (hden : 0 < den)
    (h1 : 2 ^ (k + 52) * den ≤ num) (h2 : num < 2 ^ (k + 53) * den) :
    roundNearestEven num den =
      if den * 2 ^ k < 2 * (num % (den * 2 ^ k)) ∨
          (2 * (num % (den * 2 ^ k)) = den * 2 ^ k ∧ num / (den * 2 ^ k) % 2 = 1)
      then (num / (den * 2 ^ k) + 1) * 2 ^ k else num / (den * 2 ^ k) * 2 ^ k := by
  have hq : Nat.log2 (num / den) = k + 52 := by
    apply log2_eq_of_bounds
    · exact (Nat.le_div_iff_mul_le hden).2 h1
    · exact (Nat.div_lt_iff_lt_mul hden).2 h2
  unfold roundNearestEven
  simp only []
  rw [hq, Nat.add_sub_cancel]

theorem roundNearestEven_zero (den : Nat) : roundNearestEven 0 den = 0 := by
  unfold roundNearestEven
  simp

/-- The scaled `float64` image of a `uint64`. -/
theorem ofUint64_eq (n : Nat) :
    Float64.ofUint64 n = Float64.finite (roundNearestEven (n % 2 ^ 64 * scale) 1) := rfl

theorem toFloat_mono {a b : Nat} (h : a % 2 ^ 64 ≤ b % 2 ^ 64) :
    roundNearestEven (a % 2 ^ 64 * scale) 1 ≤ roundNearestEven (b % 2 ^ 64 * scale) 1 :=
  roundNearestEven_mono_num 1 _ _ (Nat.mul_le_mul_right _ h)

theorem toFloat_max : roundNearestEven ((2 ^ 64 - 1) * scale) 1 = 2 ^ 64 * scale := by
  rw [roundNearestEven_eval _ 1 139 (by norm_num) (by norm_num [scale]) (by norm_num [scale])]
  norm_num [scale]

theorem toFloat_le (n : Nat) : roundNearestEven (n % 2 ^ 64 * scale) 1 ≤ 2 ^ 64 * scale := by
  rw [← toFloat_max]
  have h : n % 2 ^ 64 ≤ 2 ^ 64 - 1 := by
    have := Nat.mod_lt n (show 0 < 2 ^ 64 by norm_num)
    omega
  exact roundNearestEven_mono_num 1 _ _ (Nat.mul_le_mul_right _ h)

theorem toFloat_pos (n : Nat) (h : n % 2 ^ 64 ≠ 0) :
    0 < roundNearestEven (n % 2 ^ 64 * scale) 1 := by
  have h1 : roundNearestEven (1 * scale) 1 = scale := by
    rw [roundNearestEven_eval _ 1 76 (by norm_num) (by norm_num [scale]) (by norm_num [scale])]
    norm_num [scale]
  have h2 : roundNearestEven (1 * scale) 1 ≤ roundNearestEven (n % 2 ^ 64 * scale) 1 :=
    roundNearestEven_mono_num 1 _ _ (Nat.mul_le_mul_right _ (by omega))
  rw [h1] at h2
  have : 0 < scale := by norm_num [scale]
  omega

theorem toFloat_zero (n : Nat) (h : n % 2 ^ 64 = 0) :
    roundNearestEven (n % 2 ^ 64 * scale) 1 = 0 := by
  rw [h, Nat.zero_mul, roundNearestEven_zero]

/-- A positive value divided by itself is exactly one. -/
theorem roundNearestEven_self (x : Nat) (hx : 0 < x) : roundNearestEven (x * scale) x = scale := by
  have hs : scale = 2 ^ 128 := rfl
  rw [roundNearestEven_eval _ x 76 hx (by rw [hs]; norm_num; exact Nat.le_of_eq (Nat.mul_comm _ _))
    (by rw [hs, Nat.mul_comm]; exact Nat.mul_lt_mul_of_pos_right (by norm_num) hx)]
  have h1 : x * scale = x * 2 ^ 76 * 2 ^ 52 := by rw [hs, Nat.mul_assoc, ← pow_add]
  have hpos : 0 < x * 2 ^ 76 := Nat.mul_pos hx (by norm_num)
  rw [h1, Nat.mul_mod_right, Nat.mul_div_cancel_left _ hpos]
  rw [if_neg (by omega)]
  rw [hs, ← pow_add]

theorem le_finite_of_le {x y : Nat} (h : x ≤ y) (c : Float64)
    (hc : (Float64.finite y).le c = true) : (Float64.finite x).le c = true := by
  cases c with
  | finite z =>
      simp only [Float64.le, decide_eq_true_eq] at hc ⊢
      omega
  | inf => rfl
  | nan => simp [Float64.le] at hc

theorem ofUint64_max : Float64.ofUint64 MaxUint64 = Float64.finite (2 ^ 64 * scale) := by
  rw [ofUint64_eq]
  have : MaxUint64 % 2 ^ 64 = 2 ^ 64 - 1 := by norm_num [MaxUint64]
  rw [this, toFloat_max]

theorem sumPctOf_eq (b : Ref) :
    sumPctOf b = Float64.finite
      (roundNearestEven (roundNearestEven (b.Sum64 % 2 ^ 64 * scale) 1 * scale) (2 ^ 64 * scale)) := by
  unfold sumPctOf
  rw [ofUint64_max, ofUint64_eq]
  have h : (2 ^ 64 * scale = 0) = False := by norm_num [scale]
  simp only [Float64.div, h, if_false]

theorem sumPct_mono {a b : Nat} (h : a % 2 ^ 64 ≤ b % 2 ^ 64) :
    roundNearestEven (roundNearestEven (a % 2 ^ 64 * scale) 1 * scale) (2 ^ 64 * scale)
      ≤ roundNearestEven (roundNearestEven (b % 2 ^ 64 * scale) 1 * scale) (2 ^ 64 * scale) :=
  roundNearestEven_mono_num _ _ _ (Nat.mul_le_mul_right _ (toFloat_mono h))

theorem sumPct_le_one (a : Nat) :
    roundNearestEven (roundNearestEven (a % 2 ^ 64 * scale) 1 * scale) (2 ^ 64 * scale) ≤ scale := by
  have h1 := roundNearestEven_self (2 ^ 64 * scale) (by norm_num [scale])
  have h2 : roundNearestEven (roundNearestEven (a % 2 ^ 64 * scale) 1 * scale) (2 ^ 64 * scale)
      ≤ roundNearestEven (2 ^ 64 * scale * scale) (2 ^ 64 * scale) :=
    roundNearestEven_mono_num _ _ _ (Nat.mul_le_mul_right _ (toFloat_le a))
  omega

theorem sweep_cons (sp tc : Float64) (st : limit.Storage) (rest : List limit.Storage) (i e : Nat) :
    sweep sp tc (st :: rest) i e =
      if hit sp tc ((e + st.Capacity) % 2 ^ 64) = true then some (i % 2 ^ 32)
      else sweep sp tc rest (i + 1) ((e + st.Capacity) % 2 ^ 64) := rfl

theorem endAfter_zero (st : limit.Storage) (rest : List limit.Storage) (e : Nat) :
    endAfter (st :: rest) e 0 = (e + st.Capacity) % 2 ^ 64 := rfl

theorem endAfter_succ (st : limit.Storage) (rest : List limit.Storage) (e k : Nat) :
    endAfter (st :: rest) e (k + 1) = endAfter rest ((e + st.Capacity) % 2 ^ 64) k := rfl

/-- The loop returns the first index whose test succeeds. -/
theorem sweep_eq_some_iff (sp tc : Float64) (l : List limit.Storage) (i e r : Nat) :
    sweep sp tc l i e = some r ↔
      ∃ k, k < l.length ∧ r = (i + k) % 2 ^ 32 ∧ hit sp tc (endAfter l e k) = true ∧
        ∀ j, j < k → hit sp tc (endAfter l e j) = false := by
  induction l generalizing i e with
  | nil =>
      constructor
      · intro h; cases h
      · rintro ⟨k, hk, _⟩; cases hk
  | cons st rest ih =>
      rw [sweep_cons]
      by_cases hh : hit sp tc ((e + st.Capacity) % 2 ^ 64) = true
      · rw [if_pos hh]
        constructor
        · intro h
          refine ⟨0, Nat.succ_pos _, ?_, ?_, ?_⟩
          · cases h; rfl
          · rw [endAfter_zero]; exact hh
          · intro j hj; cases hj
        · rintro ⟨k, _, hr, hk, hmin⟩
          cases k with
          | zero => rw [hr]; rfl
          | succ k =>
              have := hmin 0 (Nat.succ_pos _)
              rw [endAfter_zero, hh] at this
              cases this
      · rw [if_neg hh, ih]
        have hf : hit sp tc ((e + st.Capacity) % 2 ^ 64) = false := by
          cases h : hit sp tc ((e + st.Capacity) % 2 ^ 64)
          · rfl
          · exact absurd h hh
        constructor
        · rintro ⟨k, hk, hr, hhit, hmin⟩
          refine ⟨k + 1, Nat.succ_lt_succ hk, ?_, ?_, ?_⟩
          · rw [hr]; congr 1; omega
          · rw [endAfter_succ]; exact hhit
          · intro j hj
            cases j with
            | zero => rw [endAfter_zero]; exact hf
            | succ j => rw [endAfter_succ]; exact hmin j (by omega)
        · rintro ⟨k, hk, hr, hhit, hmin⟩
          cases k with
          | zero =>
              rw [endAfter_zero, hf] at hhit
              cases hhit
          | succ k =>
              refine ⟨k, Nat.lt_of_succ_lt_succ hk, ?_, ?_, ?_⟩
              · rw [hr]; congr 1; omega
              · rw [endAfter_succ] at hhit; exact hhit
              · intro j hj
                have := hmin (j + 1) (by omega)
                rw [endAfter_succ] at this
                exact this

/-- The loop falls through exactly when no test succeeds. -/
theorem sweep_eq_none_iff (sp tc : Float64) (l : List limit.Storage) (i e : Nat) :
    sweep sp tc l i e = none ↔ ∀ k, k < l.length → hit sp tc (endAfter l e k) = false := by
  induction l generalizing i e with
  | nil =>
      constructor
      · intro _ k hk; cases hk
      · intro _; rfl
  | cons st rest ih =>
      rw [sweep_cons]
      by_cases hh : hit sp tc ((e + st.Capacity) % 2 ^ 64) = true
      · rw [if_pos hh]
        constructor
        · intro h; cases h
        · intro h
          have := h 0 (Nat.succ_pos _)
          rw [endAfter_zero, hh] at this
          cases this
      · rw [if_neg hh, ih]
        have hf : hit sp tc ((e + st.Capacity) % 2 ^ 64) = false := by
          cases h : hit sp tc ((e + st.Capacity) % 2 ^ 64)
          · rfl
          · exact absurd h hh
        constructor
        · intro h k hk
          cases k with
          | zero => rw [endAfter_zero]; exact hf
          | succ k => rw [endAfter_succ]; exact h k (Nat.lt_of_succ_lt_succ hk)
        · intro h k hk
          have := h (k + 1) (Nat.succ_lt_succ hk)
          rw [endAfter_succ] at this
          exact this

theorem selectBackend_eq (s : SizeWeightedBackendSelector) (b : Ref) :
    SelectBackend s b = sweep (sumPctOf b) (Float64.ofUint64 (totalCapacity s)) s 0 0 := rfl

theorem capPctAt_hit (s : SizeWeightedBackendSelector) (b : Ref) (i : Nat) :
    (sumPctOf b).le (capPctAt s i) = hit (sumPctOf b) (Float64.ofUint64 (totalCapacity s)) (endAfter s 0 i) := rfl

theorem finite_le_iff (x y : Nat) : (Float64.finite x).le (Float64.finite y) = true ↔ x ≤ y := by
  simp [Float64.le]

theorem capacity_lt (st : limit.Storage) : st.Capacity < 2 ^ 64 :=
  Nat.mod_lt _ (by norm_num)

theorem endAfter_lt (l : List limit.Storage) (e k : Nat) (hl : l ≠ []) : endAfter l e k < 2 ^ 64 := by
  cases l with
  | nil => exact absurd rfl hl
  | cons st rest =>
      induction k generalizing st rest e with
      | zero => rw [endAfter_zero]; exact Nat.mod_lt _ (by norm_num)
      | succ k ih =>
          rw [endAfter_succ]
          cases rest with
          | nil => exact Nat.mod_lt _ (by norm_num)
          | cons st2 rest2 => exact ih _ st2 rest2 (by simp)

theorem endAfter_last (l : List limit.Storage) (e k : Nat) (hk : l.length ≤ k + 1) :
    endAfter l e k = l.foldl (fun total st => (total + st.Capacity) % 2 ^ 64) e := by
  unfold endAfter
  rw [List.take_of_length_le hk]

theorem totalCapacity_lt (s : SizeWeightedBackendSelector) : totalCapacity s < 2 ^ 64 := by
  cases s with
  | nil => norm_num [totalCapacity]
  | cons st rest =>
      have := endAfter_lt (st :: rest) 0 rest.length (by simp)
      rw [endAfter_last _ _ _ (by simp)] at this
      exact this

/-- The test succeeds where the cumulative capacity equals a total that is not zero. -/
theorem hit_total (b : Ref) (t : Nat) (ht : t ≠ 0) (hlt : t < 2 ^ 64) :
    hit (sumPctOf b) (Float64.ofUint64 t) t = true := by
  have hmod : t % 2 ^ 64 ≠ 0 := by rw [Nat.mod_eq_of_lt hlt]; exact ht
  have hpos := toFloat_pos t hmod
  unfold hit
  rw [sumPctOf_eq, ofUint64_eq]
  have hne : (roundNearestEven (t % 2 ^ 64 * scale) 1 = 0) = False := by
    simp only [eq_iff_iff, iff_false]; omega
  simp only [Float64.div, hne, if_false]
  rw [roundNearestEven_self _ hpos, finite_le_iff]
  exact sumPct_le_one _

/-- The test succeeds where the total is zero and the cumulative capacity is not. -/
theorem hit_inf (b : Ref) (t e : Nat) (ht : t % 2 ^ 64 = 0) (he : e % 2 ^ 64 ≠ 0) :
    hit (sumPctOf b) (Float64.ofUint64 t) e = true := by
  have hpos := toFloat_pos e he
  unfold hit
  rw [sumPctOf_eq, ofUint64_eq, ofUint64_eq, toFloat_zero t ht]
  have hne : (roundNearestEven (e % 2 ^ 64 * scale) 1 = 0) = False := by
    simp only [eq_iff_iff, iff_false]; omega
  simp only [Float64.div, hne, if_false, if_true]
  rfl

theorem exists_endAfter_ne_zero (l : List limit.Storage)
    (h : ∃ st, st ∈ l ∧ st.Capacity ≠ 0) : ∃ k, k < l.length ∧ endAfter l 0 k ≠ 0 := by
  induction l with
  | nil => obtain ⟨st, hst, _⟩ := h; cases hst
  | cons st rest ih =>
      by_cases hc : st.Capacity = 0
      · have h2 : ∃ st, st ∈ rest ∧ st.Capacity ≠ 0 := by
          obtain ⟨x, hx, hx0⟩ := h
          rcases List.mem_cons.1 hx with rfl | hmem
          · exact absurd hc hx0
          · exact ⟨x, hmem, hx0⟩
        obtain ⟨k, hk, hk0⟩ := ih h2
        refine ⟨k + 1, Nat.succ_lt_succ hk, ?_⟩
        rw [endAfter_succ, hc]
        exact hk0
      · refine ⟨0, Nat.succ_pos _, ?_⟩
        rw [endAfter_zero, Nat.zero_add, Nat.mod_eq_of_lt (capacity_lt st)]
        exact hc

/-- Some test of the loop succeeds as soon as one capacity is not zero. -/
theorem exists_hit (s : SizeWeightedBackendSelector) (b : Ref)
    (h : ∃ st, st ∈ s ∧ st.Capacity ≠ 0) :
    ∃ k, k < s.length ∧
      hit (sumPctOf b) (Float64.ofUint64 (totalCapacity s)) (endAfter s 0 k) = true := by
  have hne : s ≠ [] := by
    rintro rfl
    obtain ⟨st, hst, _⟩ := h
    cases hst
  have hlen : 0 < s.length := List.length_pos.2 hne
  by_cases ht : totalCapacity s = 0
  · obtain ⟨k, hk, hk0⟩ := exists_endAfter_ne_zero s h
    refine ⟨k, hk, hit_inf b _ _ (by rw [ht]; rfl) ?_⟩
    rw [Nat.mod_eq_of_lt (endAfter_lt s 0 k hne)]
    exact hk0
  · refine ⟨s.length - 1, by omega, ?_⟩
    rw [endAfter_last s 0 (s.length - 1) (by omega)]
    exact hit_total b (totalCapacity s) ht (totalCapacity_lt s)

theorem selectBackend_returns (s : SizeWeightedBackendSelector) (b : Ref)
    (h : ∃ st, st ∈ s ∧ st.Capacity ≠ 0) :
    ∃ i, SelectBackend s b = some i ∧ i < s.length := by
  obtain ⟨k, hk, hhit⟩ := exists_hit s b h
  rw [selectBackend_eq]
  cases hsw : sweep (sumPctOf b) (Float64.ofUint64 (totalCapacity s)) s 0 0 with
  | none =>
      have := (sweep_eq_none_iff _ _ _ _ _).1 hsw k hk
      rw [hhit] at this
      cases this
  | some r =>
      obtain ⟨k2, hk2, hr, _, _⟩ := (sweep_eq_some_iff _ _ _ _ _ _).1 hsw
      refine ⟨r, rfl, ?_⟩
      rw [hr, Nat.zero_add]
      exact lt_of_le_of_lt (Nat.mod_le _ _) hk2

/-- Below `2^32` backends the returned index is the index of the first test that succeeds. -/
theorem selectBackend_iff (s : SizeWeightedBackendSelector) (b : Ref) (i : Nat)
    (hlen : s.length ≤ 2 ^ 32) :
    SelectBackend s b = some i ↔
      i < s.length ∧ (sumPctOf b).le (capPctAt s i) = true ∧
        ∀ j, j < i → (sumPctOf b).le (capPctAt s j) = false := by
  rw [selectBackend_eq, sweep_eq_some_iff]
  constructor
  · rintro ⟨k, hk, hr, hhit, hmin⟩
    have hki : i = k := by
      rw [hr, Nat.zero_add]
      exact Nat.mod_eq_of_lt (by omega)
    subst hki
    exact ⟨hk, hhit, hmin⟩
  · rintro ⟨hi, hhit, hmin⟩
    refine ⟨i, hi, ?_, hhit, hmin⟩
    rw [Nat.zero_add]
    exact (Nat.mod_eq_of_lt (by omega)).symm

/-- A smaller hash passes every test that a larger hash passes. -/
theorem hit_mono (b1 b2 : Ref) (h : b1.Sum64 ≤ b2.Sum64) (tc : Float64) (e : Nat)
    (h2 : hit (sumPctOf b2) tc e = true) : hit (sumPctOf b1) tc e = true := by
  unfold hit at h2 ⊢
  rw [sumPctOf_eq] at h2 ⊢
  refine le_finite_of_le (sumPct_mono ?_) _ h2
  have h1 : b1.Sum64 % 2 ^ 64 = b1.Sum64 := Nat.mod_eq_of_lt (Nat.mod_lt _ (by norm_num))
  have h3 : b2.Sum64 % 2 ^ 64 = b2.Sum64 := Nat.mod_eq_of_lt (Nat.mod_lt _ (by norm_num))
  rw [h1, h3]
  exact h

theorem selectBackend_le_of_le (s : SizeWeightedBackendSelector) (b1 b2 : Ref)
    (hlen : s.length ≤ 2 ^ 32) (hpos : ∃ st, st ∈ s ∧ st.Capacity ≠ 0)
    (h : b1.Sum64 ≤ b2.Sum64) :
    ∃ i j, SelectBackend s b1 = some i ∧ SelectBackend s b2 = some j ∧ i ≤ j ∧ j < s.length := by
  obtain ⟨i, hi, _⟩ := selectBackend_returns s b1 hpos
  obtain ⟨j, hj, hjlt⟩ := selectBackend_returns s b2 hpos
  refine ⟨i, j, hi, hj, ?_, hjlt⟩
  obtain ⟨_, _, hmin⟩ := (selectBackend_iff s b1 i hlen).1 hi
  obtain ⟨_, hhit, _⟩ := (selectBackend_iff s b2 j hlen).1 hj
  by_contra hlt
  have h1 : hit (sumPctOf b1) (Float64.ofUint64 (totalCapacity s)) (endAfter s 0 j) = false :=
    hmin j (by omega)
  have h2 : hit (sumPctOf b1) (Float64.ofUint64 (totalCapacity s)) (endAfter s 0 j) = true :=
    hit_mono b1 b2 h _ _ hhit
  rw [h1] at h2
  cases h2

theorem foldl_capacity_no_overflow (l : List limit.Storage) (e : Nat)
    (h : e + (l.map limit.Storage.Capacity).sum < 2 ^ 64) :
    l.foldl (fun total st => (total + st.Capacity) % 2 ^ 64) e
      = e + (l.map limit.Storage.Capacity).sum := by
  induction l generalizing e with
  | nil => simp
  | cons st rest ih =>
      simp only [List.map_cons, List.sum_cons, List.foldl_cons] at h ⊢
      rw [Nat.mod_eq_of_lt (by omega), ih _ (by omega)]
      omega

theorem capacity_le_sum (l : List limit.Storage) (st : limit.Storage) (h : st ∈ l) :
    st.Capacity ≤ (l.map limit.Storage.Capacity).sum := by
  induction l with
  | nil => cases h
  | cons x rest ih =>
      simp only [List.map_cons, List.sum_cons]
      rcases List.mem_cons.1 h with rfl | hmem
      · omega
      · have := ih hmem
        omega

theorem foldl_capacity_zero (l : List limit.Storage) (h : ∀ st, st ∈ l → st.Capacity = 0) :
    l.foldl (fun total st => (total + st.Capacity) % 2 ^ 64) 0 = 0 := by
  induction l with
  | nil => rfl
  | cons x rest ih =>
      simp only [List.foldl_cons]
      rw [h x (List.mem_cons_self _ _)]
      exact ih (fun st hst => h st (List.mem_cons_of_mem _ hst))

theorem hit_nan (sp : Float64) : hit sp (Float64.ofUint64 0) 0 = false := by
  unfold hit
  rw [ofUint64_eq, toFloat_zero 0 rfl]
  simp only [Float64.div, if_true]
  cases sp <;> rfl

/-- Without a capacity that is not zero the loop falls through. -/
theorem selectBackend_all_zero (s : SizeWeightedBackendSelector) (b : Ref)
    (h : ∀ st, st ∈ s → st.Capacity = 0) : SelectBackend s b = none := by
  rw [selectBackend_eq, sweep_eq_none_iff]
  intro k _
  have h1 : totalCapacity s = 0 := foldl_capacity_zero s h
  have h2 : endAfter s 0 k = 0 :=
    foldl_capacity_zero _ (fun st hst => h st (List.mem_of_mem_take hst))
  rw [h1, h2]
  exact hit_nan _

theorem endAfter_append (l : List limit.Storage) (c : limit.Storage) (e k : Nat)
    (hk : k < l.length) : endAfter (l ++ [c]) e k = endAfter l e k := by
  unfold endAfter
  rw [List.take_append_of_le_length (by omega)]

/-- A larger total makes every test harder to pass. -/
theorem hit_antitone (sp : Float64) (t1 t2 e : Nat) (h0 : t1 % 2 ^ 64 ≠ 0)
    (hle : t1 % 2 ^ 64 ≤ t2 % 2 ^ 64)
    (h : hit sp (Float64.ofUint64 t2) e = true) : hit sp (Float64.ofUint64 t1) e = true := by
  have hp1 := toFloat_pos t1 h0
  have hp2 := toFloat_pos t2 (by omega)
  have hm := @toFloat_mono t1 t2 hle
  unfold hit at h ⊢
  rw [ofUint64_eq, ofUint64_eq] at h ⊢
  have hne1 : (roundNearestEven (t1 % 2 ^ 64 * scale) 1 = 0) = False := by
    simp only [eq_iff_iff, iff_false]; omega
  have hne2 : (roundNearestEven (t2 % 2 ^ 64 * scale) 1 = 0) = False := by
    simp only [eq_iff_iff, iff_false]; omega
  simp only [Float64.div, hne1, hne2, if_false] at h ⊢
  have hr : roundNearestEven (roundNearestEven (e % 2 ^ 64 * scale) 1 * scale)
        (roundNearestEven (t2 % 2 ^ 64 * scale) 1)
      ≤ roundNearestEven (roundNearestEven (e % 2 ^ 64 * scale) 1 * scale)
        (roundNearestEven (t1 % 2 ^ 64 * scale) 1) :=
    roundNearestEven_mono _ _ _ _ hp2 hp1 (Nat.mul_le_mul_left _ hm)
  cases sp with
  | finite x =>
      rw [finite_le_iff] at h ⊢
      omega
  | inf => simp [Float64.le] at h
  | nan => simp [Float64.le] at h

theorem selectBackend_append_le (s : SizeWeightedBackendSelector) (c : limit.Storage) (b : Ref)
    (i : Nat) (hlen : s.length < 2 ^ 32)
    (hsum : (s.map limit.Storage.Capacity).sum + c.Capacity < 2 ^ 64)
    (hsel : SelectBackend s b = some i) :
    ∃ j, SelectBackend (s ++ [c]) b = some j ∧ i ≤ j ∧ j ≤ s.length := by
  -- some capacity of the original list is not zero
  have hpos : ∃ st, st ∈ s ∧ st.Capacity ≠ 0 := by
    by_contra hcon
    have hz : ∀ st, st ∈ s → st.Capacity = 0 := by
      intro st hst
      by_contra hne
      exact hcon ⟨st, hst, hne⟩
    rw [selectBackend_all_zero s b hz] at hsel
    cases hsel
  have hT : totalCapacity s = (s.map limit.Storage.Capacity).sum := by
    have := foldl_capacity_no_overflow s 0 (by omega)
    rw [Nat.zero_add] at this
    exact this
  have hT2 : totalCapacity (s ++ [c]) = (s.map limit.Storage.Capacity).sum + c.Capacity := by
    have := foldl_capacity_no_overflow (s ++ [c]) 0 (by simp; omega)
    rw [Nat.zero_add] at this
    rw [totalCapacity, this]
    simp
  have hTpos : totalCapacity s ≠ 0 := by
    obtain ⟨st, hst, hne⟩ := hpos
    have := capacity_le_sum s st hst
    omega
  have hpos2 : ∃ st, st ∈ s ++ [c] ∧ st.Capacity ≠ 0 := by
    obtain ⟨st, hst, hne⟩ := hpos
    exact ⟨st, List.mem_append_left _ hst, hne⟩
  obtain ⟨j, hj, hjlt⟩ := selectBackend_returns (s ++ [c]) b hpos2
  have hlen2 : (s ++ [c]).length ≤ 2 ^ 32 := by simp; omega
  obtain ⟨_, hhit, hmin⟩ := (selectBackend_iff s b i (by omega)).1 hsel
  obtain ⟨_, hhit2, _⟩ := (selectBackend_iff (s ++ [c]) b j hlen2).1 hj
  refine ⟨j, hj, ?_, ?_⟩
  · by_contra hlt
    have hjs : j < s.length := by
      have : i < s.length := by assumption
      omega
    have h1 : hit (sumPctOf b) (Float64.ofUint64 (totalCapacity s)) (endAfter s 0 j) = false :=
      hmin j (by omega)
    have h2 : hit (sumPctOf b) (Float64.ofUint64 (totalCapacity (s ++ [c])))
        (endAfter (s ++ [c]) 0 j) = true := hhit2
    rw [endAfter_append s c 0 j hjs] at h2
    have h3 := hit_antitone (sumPctOf b) (totalCapacity s) (totalCapacity (s ++ [c])) _
      (by rw [Nat.mod_eq_of_lt (totalCapacity_lt s)]; exact hTpos)
      (by rw [Nat.mod_eq_of_lt (totalCapacity_lt s),
            Nat.mod_eq_of_lt (totalCapacity_lt (s ++ [c])), hT, hT2]; omega) h2
    rw [h1] at h3
    cases h3
  · simp at hjlt
    omega

/-- Integers below `2^53` convert exactly. -/
theorem toFloat_exact (n : Nat) (h : n < 2 ^ 53) : roundNearestEven (n * scale) 1 = n * scale := by
  by_cases h0 : n = 0
  · subst h0; rw [Nat.zero_mul, roundNearestEven_zero]
  · have hs : scale = 2 ^ 128 := rfl
    have hL1 := Nat.log2_self_le h0
    have hL2 := @Nat.lt_log2_self n
    have hL : Nat.log2 n ≤ 52 := by
      by_contra hcon
      have : 2 ^ 53 ≤ 2 ^ Nat.log2 n := Nat.pow_le_pow_right (by norm_num) (by omega)
      omega
    rw [roundNearestEven_eval _ 1 (Nat.log2 n + 76) (by norm_num)
      (by rw [hs, Nat.mul_one, show Nat.log2 n + 76 + 52 = Nat.log2 n + 128 by omega, pow_add]
          exact Nat.mul_le_mul_right _ hL1)
      (by rw [hs, Nat.mul_one, show Nat.log2 n + 76 + 53 = Nat.log2 n + 1 + 128 by omega, pow_add]
          exact Nat.mul_lt_mul_of_pos_right hL2 (by norm_num))]
    have h1 : n * scale = 2 ^ (Nat.log2 n + 76) * (n * 2 ^ (52 - Nat.log2 n)) := by
      rw [hs, Nat.mul_comm (2 ^ (Nat.log2 n + 76)), Nat.mul_assoc, ← pow_add]
      congr 2
      omega
    have hpos : 0 < 2 ^ (Nat.log2 n + 76) := Nat.pos_pow_of_pos _ (by norm_num)
    rw [Nat.one_mul, h1, Nat.mul_mod_right, Nat.mul_div_cancel_left _ hpos]
    rw [if_neg (by omega), Nat.mul_comm]

theorem ofUint64_exact (n : Nat) (h : n < 2 ^ 53) :
    Float64.ofUint64 n = Float64.finite (n * scale) := by
  rw [ofUint64_eq, Nat.mod_eq_of_lt (by omega), toFloat_exact n h]

theorem div_finite (x y : Nat) (hy : y ≠ 0) :
    (Float64.finite x).div (Float64.finite y) = Float64.finite (roundNearestEven (x * scale) y) := by
  simp only [Float64.div, hy, if_false]

/-- The double nearest to two thirds. -/
theorem capPct_two_thirds :
    roundNearestEven (65536 * scale * scale) (98304 * scale) = 12297829382473033728 * 2 ^ 64 := by
  rw [roundNearestEven_eval _ _ 75 (by norm_num [scale]) (by norm_num [scale]) (by norm_num [scale])]
  norm_num [scale]

theorem sumPct_below :
    roundNearestEven (roundNearestEven (12297829382473034751 % 2 ^ 64 * scale) 1 * scale)
      (2 ^ 64 * scale) = 12297829382473033728 * 2 ^ 64 := by
  have h1 : roundNearestEven (12297829382473034751 % 2 ^ 64 * scale) 1
      = 12297829382473033728 * scale := by
    rw [roundNearestEven_eval _ 1 139 (by norm_num) (by norm_num [scale]) (by norm_num [scale])]
    norm_num [scale]
  rw [h1, roundNearestEven_eval _ _ 75 (by norm_num [scale]) (by norm_num [scale])
    (by norm_num [scale])]
  norm_num [scale]

theorem sumPct_above :
    roundNearestEven (roundNearestEven (12297829382473034752 % 2 ^ 64 * scale) 1 * scale)
      (2 ^ 64 * scale) = 12297829382473035776 * 2 ^ 64 := by
  have h1 : roundNearestEven (12297829382473034752 % 2 ^ 64 * scale) 1
      = 12297829382473035776 * scale := by
    rw [roundNearestEven_eval _ 1 139 (by norm_num) (by norm_num [scale]) (by norm_num [scale])]
    norm_num [scale]
  rw [h1, roundNearestEven_eval _ _ 75 (by norm_num [scale]) (by norm_num [scale])
    (by norm_num [scale])]
  norm_num [scale]

theorem hit_two_thirds (b : Ref) :
    hit (sumPctOf b) (Float64.ofUint64 98304) 65536
      = decide (b.Sum64 ≤ 12297829382473034751) := by
  unfold hit
  rw [sumPctOf_eq, ofUint64_exact 98304 (by norm_num), ofUint64_exact 65536 (by norm_num),
    div_finite _ _ (by norm_num [scale]), capPct_two_thirds]
  have hb : b.Sum64 % 2 ^ 64 = b.Sum64 := Nat.mod_eq_of_lt (Nat.mod_lt _ (by norm_num))
  by_cases h : b.Sum64 ≤ 12297829382473034751
  · have hm := @sumPct_mono b.Sum64 12297829382473034751 (by rw [hb]; norm_num; exact h)
    rw [sumPct_below] at hm
    rw [decide_eq_true h, finite_le_iff]
    exact hm
  · have hm := @sumPct_mono 12297829382473034752 b.Sum64 (by rw [hb]; norm_num; omega)
    rw [sumPct_above] at hm
    rw [decide_eq_false h]
    cases hc : (Float64.finite (roundNearestEven
        (roundNearestEven (b.Sum64 % 2 ^ 64 * scale) 1 * scale) (2 ^ 64 * scale))).le
        (Float64.finite (12297829382473033728 * 2 ^ 64)) with
    | false => rfl
    | true =>
        rw [finite_le_iff] at hc
        omega

/-- With capacities `2^16` and `2^15` the first shard takes the hashes up to
`12297829382473034751` and the second the others. -/
theorem selectBackend_two_thirds (b : Ref) :
    SelectBackend (NewSizeWeightedBackendSelectorWithLimits [2 ^ 16, 2 ^ 15]) b
      = some (if b.Sum64 ≤ 12297829382473034751 then 0 else 1) := by
  have hT : totalCapacity (NewSizeWeightedBackendSelectorWithLimits [2 ^ 16, 2 ^ 15]) = 98304 := by decide
  rw [selectBackend_eq, hT]
  have hs : NewSizeWeightedBackendSelectorWithLimits [2 ^ 16, 2 ^ 15] = [limit.NewLimit (2 ^ 16), limit.NewLimit (2 ^ 15)] := rfl
  have hc1 : (0 + (limit.NewLimit (2 ^ 16)).Capacity) % 2 ^ 64 = 65536 := by decide
  have hc2 : (65536 + (limit.NewLimit (2 ^ 15)).Capacity) % 2 ^ 64 = 98304 := by decide
  rw [hs, sweep_cons, hc1, hit_two_thirds]
  by_cases h : b.Sum64 ≤ 12297829382473034751
  · rw [if_pos (decide_eq_true h), if_pos h]
    rfl
  · rw [if_neg (by rw [decide_eq_false h]; simp), if_neg h, sweep_cons, hc2,
      if_pos (hit_total b 98304 (by norm_num) (by norm_num))]
    rfl

/-- The hash `2^63` has `sumPct` one half. -/
theorem sumPct_half :
    sumPctOf ⟨0, 0, 2 ^ 63⟩ = Float64.finite (2 ^ 127) := by
  rw [sumPctOf_eq]
  have hb : (Ref.Sum64 ⟨0, 0, 2 ^ 63⟩) % 2 ^ 64 = 2 ^ 63 := by decide
  have h1 : roundNearestEven (2 ^ 63 * scale) 1 = 2 ^ 63 * scale := by
    rw [roundNearestEven_eval _ 1 139 (by norm_num) (by norm_num [scale]) (by norm_num [scale])]
    norm_num [scale]
  rw [hb, h1, roundNearestEven_eval _ _ 75 (by norm_num [scale]) (by norm_num [scale])
    (by norm_num [scale])]
  norm_num [scale]

/-- The hash `1` has `sumPct` `2^(-64)`. -/
theorem sumPct_one :
    sumPctOf ⟨0, 0, 1⟩ = Float64.finite (2 ^ 64) := by
  rw [sumPctOf_eq]
  have hb : (Ref.Sum64 ⟨0, 0, 1⟩) % 2 ^ 64 = 1 := by decide
  rw [hb, toFloat_exact 1 (by norm_num),
    roundNearestEven_eval _ _ 12 (by norm_num [scale]) (by norm_num [scale])
    (by norm_num [scale])]
  norm_num [scale]

/-- The largest hash has `sumPct` one. -/
theorem sumPct_max :
    sumPctOf ⟨0, 0, 2 ^ 64 - 1⟩ = Float64.finite scale := by
  rw [sumPctOf_eq]
  have hb : (Ref.Sum64 ⟨0, 0, 2 ^ 64 - 1⟩) % 2 ^ 64 = 2 ^ 64 - 1 := by decide
  rw [hb, toFloat_max, roundNearestEven_self _ (by norm_num [scale])]

theorem hit_finite (x t e : Nat) (ht : t < 2 ^ 53) (he : e < 2 ^ 53) (ht0 : t ≠ 0) :
    hit (Float64.finite x) (Float64.ofUint64 t) e
      = decide (x ≤ roundNearestEven (e * scale * scale) (t * scale)) := by
  unfold hit
  rw [ofUint64_exact t ht, ofUint64_exact e he,
    div_finite _ _ (Nat.mul_ne_zero ht0 (by norm_num [scale]))]
  rfl

theorem quot_zero (t : Nat) : roundNearestEven (0 * scale * scale) t = 0 := by
  rw [Nat.zero_mul, Nat.zero_mul, roundNearestEven_zero]

theorem quot_one_half : roundNearestEven (1 * scale * scale) (2 * scale) = 2 ^ 127 := by
  rw [roundNearestEven_eval _ _ 75 (by norm_num [scale]) (by norm_num [scale])
    (by norm_num [scale])]
  norm_num [scale]

theorem quot_one_third :
    roundNearestEven (1 * scale * scale) (3 * scale) = 6004799503160661 * 2 ^ 74 := by
  rw [roundNearestEven_eval _ _ 74 (by norm_num [scale]) (by norm_num [scale])
    (by norm_num [scale])]
  norm_num [scale]

theorem quot_two_thirds :
    roundNearestEven (2 * scale * scale) (3 * scale) = 6004799503160661 * 2 ^ 75 := by
  rw [roundNearestEven_eval _ _ 75 (by norm_num [scale]) (by norm_num [scale])
    (by norm_num [scale])]
  norm_num [scale]

theorem quot_two_halves : roundNearestEven (2 * scale * scale) (2 * scale) = scale :=
  roundNearestEven_self (2 * scale) (by norm_num [scale])

/-- Two backends of capacity one send the hash `2^63` to shard 0. -/
theorem selectBackend_half_two : SelectBackend (NewSizeWeightedBackendSelectorWithLimits [1, 1]) ⟨0, 0, 2 ^ 63⟩ = some 0 := by
  have hT : totalCapacity (NewSizeWeightedBackendSelectorWithLimits [1, 1]) = 2 := by decide
  have hs : NewSizeWeightedBackendSelectorWithLimits [1, 1] = [limit.NewLimit 1, limit.NewLimit 1] := rfl
  have hc1 : (0 + (limit.NewLimit 1).Capacity) % 2 ^ 64 = 1 := by decide
  rw [selectBackend_eq, hT, hs, sweep_cons, hc1, sumPct_half,
    hit_finite _ 2 1 (by norm_num) (by norm_num) (by norm_num), quot_one_half]
  rfl

/-- Three backends of capacity one send the hash `2^63` to shard 1. -/
theorem selectBackend_half_three :
    SelectBackend (NewSizeWeightedBackendSelectorWithLimits [1, 1] ++ [limit.NewLimit 1]) ⟨0, 0, 2 ^ 63⟩ = some 1 := by
  have hT : totalCapacity (NewSizeWeightedBackendSelectorWithLimits [1, 1] ++ [limit.NewLimit 1]) = 3 := by decide
  have hs : NewSizeWeightedBackendSelectorWithLimits [1, 1] ++ [limit.NewLimit 1]
      = [limit.NewLimit 1, limit.NewLimit 1, limit.NewLimit 1] := rfl
  have hc1 : (0 + (limit.NewLimit 1).Capacity) % 2 ^ 64 = 1 := by decide
  have hc2 : (1 + (limit.NewLimit 1).Capacity) % 2 ^ 64 = 2 := by decide
  rw [selectBackend_eq, hT, hs, sweep_cons, hc1, sumPct_half,
    hit_finite _ 3 1 (by norm_num) (by norm_num) (by norm_num), quot_one_third,
    if_neg (by norm_num), sweep_cons, hc2,
    hit_finite _ 3 2 (by norm_num) (by norm_num) (by norm_num), quot_two_thirds,
    if_pos (by norm_num)]
  rfl

theorem foldl_replicate_zero (z : limit.Storage) (hz : z.Capacity = 0) (n e : Nat)
    (he : e < 2 ^ 64) :
    (List.replicate n z).foldl (fun total st => (total + st.Capacity) % 2 ^ 64) e = e := by
  induction n with
  | zero => rfl
  | succ n ih =>
      rw [List.replicate_succ, List.foldl_cons, hz, Nat.add_zero, Nat.mod_eq_of_lt he]
      exact ih

/-- Backends of capacity zero after a failed test are skipped. -/
theorem sweep_replicate_zero (sp tc : Float64) (z : limit.Storage) (hz : z.Capacity = 0)
    (rest : List limit.Storage) (n i e : Nat) (he : e < 2 ^ 64) (hno : hit sp tc e = false) :
    sweep sp tc (List.replicate n z ++ rest) i e = sweep sp tc rest (i + n) e := by
  induction n generalizing i with
  | zero => rfl
  | succ n ih =>
      rw [List.replicate_succ, List.cons_append, sweep_cons, hz, Nat.add_zero,
        Nat.mod_eq_of_lt he, hno, if_neg (by simp), ih]
      congr 1
      omega

theorem totalCapacity_many :
    totalCapacity ([limit.NewLimit 0, limit.NewLimit 1]
      ++ (List.replicate (2 ^ 32 - 2) (limit.NewLimit 0) ++ [limit.NewLimit 1])) = 2 := by
  unfold totalCapacity
  rw [List.foldl_append, List.foldl_append]
  have h1 : List.foldl (fun total st => (total + st.Capacity) % 2 ^ 64) 0
      [limit.NewLimit 0, limit.NewLimit 1] = 1 := by decide
  rw [h1, foldl_replicate_zero _ (by decide) _ _ (by norm_num)]
  decide

/-- With `2^32 + 1` backends the hash `1` is sent to index 1. -/
theorem selectBackend_many_low :
    SelectBackend ([limit.NewLimit 0, limit.NewLimit 1]
      ++ (List.replicate (2 ^ 32 - 2) (limit.NewLimit 0) ++ [limit.NewLimit 1])) ⟨0, 0, 1⟩
      = some 1 := by
  have hc0 : (0 + (limit.NewLimit 0).Capacity) % 2 ^ 64 = 0 := by decide
  have hc1 : (0 + (limit.NewLimit 1).Capacity) % 2 ^ 64 = 1 := by decide
  rw [selectBackend_eq, totalCapacity_many, List.cons_append, List.cons_append, List.nil_append,
    sweep_cons, hc0, sumPct_one,
    hit_finite _ 2 0 (by norm_num) (by norm_num) (by norm_num), quot_zero,
    if_neg (by norm_num), sweep_cons, hc1,
    hit_finite _ 2 1 (by norm_num) (by norm_num) (by norm_num), quot_one_half,
    if_pos (by norm_num)]
  rfl

/-- With `2^32 + 1` backends the largest hash is sent to index `2^32`, which
the conversion to `uint32` turns into 0. -/
theorem selectBackend_many_high :
    SelectBackend ([limit.NewLimit 0, limit.NewLimit 1]
      ++ (List.replicate (2 ^ 32 - 2) (limit.NewLimit 0) ++ [limit.NewLimit 1]))
      ⟨0, 0, 2 ^ 64 - 1⟩ = some 0 := by
  have hc0 : (0 + (limit.NewLimit 0).Capacity) % 2 ^ 64 = 0 := by decide
  have hc1 : (0 + (limit.NewLimit 1).Capacity) % 2 ^ 64 = 1 := by decide
  have hc2 : (1 + (limit.NewLimit 1).Capacity) % 2 ^ 64 = 2 := by decide
  have hno : hit (Float64.finite scale) (Float64.ofUint64 2) 1 = false := by
    rw [hit_finite _ 2 1 (by norm_num) (by norm_num) (by norm_num), quot_one_half]
    norm_num [scale]
  rw [selectBackend_eq, totalCapacity_many, List.cons_append, List.cons_append, List.nil_append,
    sweep_cons, hc0, sumPct_max,
    hit_finite _ 2 0 (by norm_num) (by norm_num) (by norm_num), quot_zero,
    if_neg (by norm_num [scale]), sweep_cons, hc1, hno, if_neg (by simp),
    sweep_replicate_zero _ _ _ (by decide) _ _ _ _ (by norm_num) hno,
    sweep_cons, hc2, hit_finite _ 2 2 (by norm_num) (by norm_num) (by norm_num),
    quot_two_halves, if_pos (by simp)]
  norm_num

theorem regular_eq {α : Type} (bs : List α) (b : Ref) (h1 : 1 ≤ bs.length)
    (h2 : bs.length < 2 ^ 32) :
    RegularBackendSelector bs b = some (b.Sum32 % bs.length) ∧ b.Sum32 % bs.length < bs.length := by
  unfold RegularBackendSelector
  simp only []
  rw [Nat.mod_eq_of_lt h2, if_neg (by omega)]
  exact ⟨rfl, Nat.mod_lt _ (by omega)⟩

theorem regular_many : RegularBackendSelector (List.replicate (2 ^ 32) ()) ⟨0, 5, 0⟩ = none := by
  unfold RegularBackendSelector
  simp only [List.length_replicate]
  rfl

theorem regular_many2 :
    RegularBackendSelector (List.replicate (2 ^ 32 + 1) ()) ⟨0, 5, 0⟩ = some 0 ∧
      (Ref.Sum32 ⟨0, 5, 0⟩) % (List.replicate (2 ^ 32 + 1) ()).length = 5 := by
  unfold RegularBackendSelector
  simp only [List.length_replicate]
  decide

theorem exists_capacity_ne_zero (s : SizeWeightedBackendSelector)
    (h : 0 < (s.map limit.Storage.Capacity).sum) : ∃ st, st ∈ s ∧ st.Capacity ≠ 0 := by
  induction s with
  | nil => simp at h
  | cons x rest ih =>
      by_cases hx : x.Capacity = 0
      · simp only [List.map_cons, List.sum_cons, hx, Nat.zero_add] at h
        obtain ⟨st, hst, hne⟩ := ih h
        exact ⟨st, List.mem_cons_of_mem _ hst, hne⟩
      · exact ⟨x, List.mem_cons_self _ _, hx⟩

/-- Claim C5, counterexample.  With capacities `2^16` and `2^15` the ref whose
`Sum64` is `12297829382473034428` is routed to shard 0, although its hash
fraction `Sum64 / 2^64` exceeds `2^16 / (2^16 + 2^15) = 2/3`: the conversion
to `float64` rounds the hash down onto the double nearest to two thirds. -/
theorem selectBackend_fraction_above_two_thirds :
    SelectBackend (NewSizeWeightedBackendSelectorWithLimits [2 ^ 16, 2 ^ 15]) ⟨0, 0, 12297829382473034428⟩ = some 0 ∧
      ¬ (((Ref.Sum64 ⟨0, 0, 12297829382473034428⟩ : Nat) : ℚ) / 2 ^ 64
          ≤ (2 ^ 16 : ℚ) / (2 ^ 16 + 2 ^ 15)) := by
  refine ⟨(selectBackend_two_thirds _).trans (by decide), ?_⟩
  have h : Ref.Sum64 ⟨0, 0, 12297829382473034428⟩ = 12297829382473034428 := by decide
  rw [h]
  norm_num

/-- Claim C5, amended.  For a selector of at most `2^32` backends,
`SelectBackend` returns `i` exactly when `i` is the least index at which the
`float64` comparison `sumPct <= capPct` of the loop holds, `sumPct` being
`float64(Sum64) / float64(MaxUint64)` and `capPct` the quotient of the
`float64` images of the cumulative and the total capacity (both sums taken in
`uint64`).  With capacities `2^16` and `2^15` a ref is routed to shard 0
exactly when its `Sum64` is at most `12297829382473034751`, and to shard 1
otherwise. -/
theorem selectBackend_least (s : SizeWeightedBackendSelector) (b : Ref) (i : Nat)
    (hlen : s.length ≤ 2 ^ 32) :
    (SelectBackend s b = some i ↔
      i < s.length ∧ (sumPctOf b).le (capPctAt s i) = true ∧
        ∀ j, j < i → (sumPctOf b).le (capPctAt s j) = false) ∧
    SelectBackend (NewSizeWeightedBackendSelectorWithLimits [2 ^ 16, 2 ^ 15]) b
      = some (if b.Sum64 ≤ 12297829382473034751 then 0 else 1) :=
  ⟨selectBackend_iff s b i hlen, selectBackend_two_thirds b⟩

/-- Claim C5, the amended statement at the selector of the tests and the ref of
the counterexample. -/
theorem selectBackend_least_witness :
    (SelectBackend (NewSizeWeightedBackendSelectorWithLimits [2 ^ 16, 2 ^ 15]) ⟨0, 0, 12297829382473034428⟩ = some 0 ↔
      0 < (NewSizeWeightedBackendSelectorWithLimits [2 ^ 16, 2 ^ 15]).length ∧
        (sumPctOf ⟨0, 0, 12297829382473034428⟩).le
          (capPctAt (NewSizeWeightedBackendSelectorWithLimits [2 ^ 16, 2 ^ 15]) 0) = true ∧
        ∀ j, j < 0 → (sumPctOf ⟨0, 0, 12297829382473034428⟩).le
          (capPctAt (NewSizeWeightedBackendSelectorWithLimits [2 ^ 16, 2 ^ 15]) j) = false) ∧
    SelectBackend (NewSizeWeightedBackendSelectorWithLimits [2 ^ 16, 2 ^ 15]) ⟨0, 0, 12297829382473034428⟩
      = some (if Ref.Sum64 ⟨0, 0, 12297829382473034428⟩ ≤ 12297829382473034751 then 0 else 1) :=
  selectBackend_least (NewSizeWeightedBackendSelectorWithLimits [2 ^ 16, 2 ^ 15]) ⟨0, 0, 12297829382473034428⟩ 0 (by decide)

/-- Claim C6, counterexample.  Over the empty selector, and over two backends
of capacity zero, `SelectBackend` reaches the panic after the loop. -/
theorem selectBackend_panics :
    SelectBackend [] ⟨0, 0, 5⟩ = none ∧ SelectBackend (NewSizeWeightedBackendSelectorWithLimits [0, 0]) ⟨0, 0, 5⟩ = none :=
  ⟨rfl, selectBackend_all_zero _ _ (by decide)⟩

/-- Claim C6, amended.  For every selector in which some backend has a capacity
that is not zero, and every ref, `SelectBackend` returns an index below the
number of backends: the panic after the loop is not reached. -/
theorem selectBackend_total (s : SizeWeightedBackendSelector) (b : Ref)
    (h : ∃ st, st ∈ s ∧ st.Capacity ≠ 0) :
    ∃ i, SelectBackend s b = some i ∧ i < s.length :=
  selectBackend_returns s b h

/-- Claim C6, the amended statement at the selector of the tests. -/
theorem selectBackend_total_witness :
    ∃ i, SelectBackend (NewSizeWeightedBackendSelectorWithLimits [2 ^ 16, 2 ^ 15]) ⟨0, 0, 5⟩ = some i ∧
      i < (NewSizeWeightedBackendSelectorWithLimits [2 ^ 16, 2 ^ 15]).length :=
  selectBackend_total (NewSizeWeightedBackendSelectorWithLimits [2 ^ 16, 2 ^ 15]) ⟨0, 0, 5⟩
    ⟨limit.NewLimit (2 ^ 16), by decide, by decide⟩

/-- Claim C7, counterexample.  With `2^32` backends the divisor `uint32(len(bs))`
is zero and the selector panics; with `2^32 + 1` backends it is one and the
ref with `Sum32 = 5` is sent to shard 0, not to shard `5 mod (2^32 + 1) = 5`. -/
theorem regularBackendSelector_wraps :
    RegularBackendSelector (List.replicate (2 ^ 32) ()) ⟨0, 5, 0⟩ = none ∧
      RegularBackendSelector (List.replicate (2 ^ 32 + 1) ()) ⟨0, 5, 0⟩ = some 0 ∧
      (Ref.Sum32 ⟨0, 5, 0⟩) % (List.replicate (2 ^ 32 + 1) ()).length = 5 :=
  ⟨regular_many, regular_many2⟩

/-- Claim C7, amended.  For every list of `N` backends with `1 ≤ N < 2^32` and
every ref, the regular selector returns `Sum32(ref) mod N`, which is an index
below `N` and depends on the ref and on `N` only. -/
theorem regularBackendSelector_mod {α : Type} (bs : List α) (b : Ref) (h1 : 1 ≤ bs.length)
    (h2 : bs.length < 2 ^ 32) :
    RegularBackendSelector bs b = some (b.Sum32 % bs.length) ∧
      b.Sum32 % bs.length < bs.length :=
  regular_eq bs b h1 h2

/-- Claim C7, the amended statement at the two backends and the first ref of
`TestShardRegular`. -/
theorem regularBackendSelector_mod_witness :
    RegularBackendSelector [(), ()] ⟨0, 452034163, 0⟩
        = some ((Ref.Sum32 ⟨0, 452034163, 0⟩) % [(), ()].length) ∧
      (Ref.Sum32 ⟨0, 452034163, 0⟩) % [(), ()].length < [(), ()].length :=
  regularBackendSelector_mod [(), ()] ⟨0, 452034163, 0⟩ (by decide) (by decide)

/-- Claim C8, counterexample.  Over two backends of capacity one the ref with
`Sum64 = 2^63` is assigned to shard 0, which is below `N - 1 = 1`; once a third
backend of capacity one is appended the same ref is assigned to shard 1. -/
theorem selectBackend_append_moves :
    SelectBackend (NewSizeWeightedBackendSelectorWithLimits [1, 1]) ⟨0, 0, 2 ^ 63⟩ = some 0 ∧
      0 < (NewSizeWeightedBackendSelectorWithLimits [1, 1]).length - 1 ∧
      SelectBackend (NewSizeWeightedBackendSelectorWithLimits [1, 1] ++ [limit.NewLimit 1]) ⟨0, 0, 2 ^ 63⟩ = some 1 :=
  ⟨selectBackend_half_two, by decide, selectBackend_half_three⟩

/-- Claim C8, amended.  For every selector of fewer than `2^32` backends, every
backend appended as the new last one such that the capacities still sum to
less than `2^64`, and every ref that the original selector assigns to a shard
`i`, the extended selector assigns the ref to a shard `j` with `i ≤ j`:
appending a backend never moves a ref to an earlier shard. -/
theorem selectBackend_append_later (s : SizeWeightedBackendSelector) (c : limit.Storage)
    (b : Ref) (i : Nat) (hlen : s.length < 2 ^ 32)
    (hsum : (s.map limit.Storage.Capacity).sum + c.Capacity < 2 ^ 64)
    (hsel : SelectBackend s b = some i) :
    ∃ j, SelectBackend (s ++ [c]) b = some j ∧ i ≤ j ∧ j ≤ s.length :=
  selectBackend_append_le s c b i hlen hsum hsel

/-- Claim C8, the amended statement at the selector and ref of the
counterexample. -/
theorem selectBackend_append_later_witness :
    ∃ j, SelectBackend (NewSizeWeightedBackendSelectorWithLimits [1, 1] ++ [limit.NewLimit 1]) ⟨0, 0, 2 ^ 63⟩ = some j ∧
      0 ≤ j ∧ j ≤ (NewSizeWeightedBackendSelectorWithLimits [1, 1]).length :=
  selectBackend_append_later (NewSizeWeightedBackendSelectorWithLimits [1, 1]) (limit.NewLimit 1) ⟨0, 0, 2 ^ 63⟩ 0
    (by decide) (by decide) selectBackend_half_two

/-- Claim C9, counterexample.  Over `2^32 + 1` backends with capacities
`0, 1, 0, ..., 0, 1` the total is positive, yet the ref with `Sum64 = 1` is
sent to shard 1 and the ref with the larger `Sum64 = 2^64 - 1` to shard 0: the
loop index `2^32` does not fit the `uint32` that is returned. -/
theorem selectBackend_not_monotone :
    0 < (([limit.NewLimit 0, limit.NewLimit 1]
        ++ (List.replicate (2 ^ 32 - 2) (limit.NewLimit 0) ++ [limit.NewLimit 1])).map
          limit.Storage.Capacity).sum ∧
      Ref.Sum64 ⟨0, 0, 1⟩ ≤ Ref.Sum64 ⟨0, 0, 2 ^ 64 - 1⟩ ∧
      SelectBackend ([limit.NewLimit 0, limit.NewLimit 1]
        ++ (List.replicate (2 ^ 32 - 2) (limit.NewLimit 0) ++ [limit.NewLimit 1])) ⟨0, 0, 1⟩
        = some 1 ∧
      SelectBackend ([limit.NewLimit 0, limit.NewLimit 1]
        ++ (List.replicate (2 ^ 32 - 2) (limit.NewLimit 0) ++ [limit.NewLimit 1]))
        ⟨0, 0, 2 ^ 64 - 1⟩ = some 0 := by
  refine ⟨?_, by decide, selectBackend_many_low, selectBackend_many_high⟩
  rw [List.map_append, List.sum_append]
  have h1 : (List.map limit.Storage.Capacity [limit.NewLimit 0, limit.NewLimit 1]).sum = 1 := by
    decide
  omega

/-- Claim C9, amended.  For every selector of at most `2^32` backends whose
capacities have a positive total, `SelectBackend` returns an index below the
number of backends for every ref and is monotone in the 64-bit hash: if
`Sum64(r1) ≤ Sum64(r2)` then the shard of `r1` is at most the shard of `r2`.
Hence the hashes routed to one shard form one range: a ref whose hash lies
between the hashes of two refs of the same shard belongs to that shard. -/
theorem selectBackend_monotone (s : SizeWeightedBackendSelector) (b1 b2 : Ref)
    (hlen : s.length ≤ 2 ^ 32) (hpos : 0 < (s.map limit.Storage.Capacity).sum)
    (h : b1.Sum64 ≤ b2.Sum64) :
    (∃ i j, SelectBackend s b1 = some i ∧ SelectBackend s b2 = some j ∧ i ≤ j ∧ j < s.length) ∧
    (∀ b3 : Ref, b2.Sum64 ≤ b3.Sum64 → SelectBackend s b3 = SelectBackend s b1 →
      SelectBackend s b2 = SelectBackend s b1) := by
  have hex := exists_capacity_ne_zero s hpos
  refine ⟨selectBackend_le_of_le s b1 b2 hlen hex h, ?_⟩
  intro b3 h23 h31
  obtain ⟨i, j, hi, hj, hij, _⟩ := selectBackend_le_of_le s b1 b2 hlen hex h
  obtain ⟨j2, k, hj2, hk, hjk, _⟩ := selectBackend_le_of_le s b2 b3 hlen hex h23
  rw [hj] at hj2
  cases hj2
  rw [hk, hi] at h31
  cases h31
  rw [hi, hj]
  congr 1
  omega

/-- Claim C9, the amended statement at the selector of the tests. -/
theorem selectBackend_monotone_witness :
    (∃ i j, SelectBackend (NewSizeWeightedBackendSelectorWithLimits [2 ^ 16, 2 ^ 15]) ⟨0, 0, 5⟩ = some i ∧
      SelectBackend (NewSizeWeightedBackendSelectorWithLimits [2 ^ 16, 2 ^ 15]) ⟨0, 0, 2 ^ 64 - 1⟩ = some j ∧ i ≤ j ∧
      j < (NewSizeWeightedBackendSelectorWithLimits [2 ^ 16, 2 ^ 15]).length) ∧
    (∀ b3 : Ref, Ref.Sum64 ⟨0, 0, 2 ^ 64 - 1⟩ ≤ b3.Sum64 →
      SelectBackend (NewSizeWeightedBackendSelectorWithLimits [2 ^ 16, 2 ^ 15]) b3
        = SelectBackend (NewSizeWeightedBackendSelectorWithLimits [2 ^ 16, 2 ^ 15]) ⟨0, 0, 5⟩ →
      SelectBackend (NewSizeWeightedBackendSelectorWithLimits [2 ^ 16, 2 ^ 15]) ⟨0, 0, 2 ^ 64 - 1⟩
        = SelectBackend (NewSizeWeightedBackendSelectorWithLimits [2 ^ 16, 2 ^ 15]) ⟨0, 0, 5⟩) :=
  selectBackend_monotone (NewSizeWeightedBackendSelectorWithLimits [2 ^ 16, 2 ^ 15]) ⟨0, 0, 5⟩ ⟨0, 0, 2 ^ 64 - 1⟩
    (by decide) (by decide) (by decide)

end shard

/-! ## Theorems: package proxycache -/

namespace proxycache

/-- Claim C10, the code at the failing input.  From `NewCache 100`, one
`touchBlob` of a ref of size 5 followed by the `touchStat` it spawns reaches a
state whose `cacheBytes` is 5 while the only LRU entry has `statOnly = true`,
so that the sizes of the entries that are not `statOnly` sum to zero. -/
theorem cacheBytes_differs_after_touch :
    Reachable 100 (((NewCache 100).touchBlob ⟨⟨1, 0, 0⟩, 5⟩).touchStat ⟨⟨1, 0, 0⟩, 5⟩) ∧
      (((NewCache 100).touchBlob ⟨⟨1, 0, 0⟩, 5⟩).touchStat ⟨⟨1, 0, 0⟩, 5⟩).cacheBytes = 5 ∧
      (((NewCache 100).touchBlob ⟨⟨1, 0, 0⟩, 5⟩).touchStat ⟨⟨1, 0, 0⟩, 5⟩).blobBytes = 0 ∧
      (((NewCache 100).touchBlob ⟨⟨1, 0, 0⟩, 5⟩).touchStat ⟨⟨1, 0, 0⟩, 5⟩).lru.entries
        = [(1, { sb := ⟨⟨1, 0, 0⟩, 5⟩, statOnly := true })] :=
  ⟨Reachable.touchBlob _ _ Reachable.init, by decide, by decide, by decide⟩

/-- Claim C12.  For every engine and every ref for which the cache reports an
error and the origin reports the not-found error `os.ErrNotExist` with no
reader, in particular when both report not-found, `Fetch` returns that
not-found error itself together with a nil reader, and touches nothing. -/
theorem fetch_not_found (s : sto) (b : Ref) (cacheAns originAns : FetchAnswer)
    (hc : cacheAns.err = some Error.ErrNotExist)
    (ho : originAns.err = some Error.ErrNotExist) (hor : originAns.rc = none) :
    ∃ out, s.Fetch b cacheAns originAns = some out ∧ out.err = some Error.ErrNotExist ∧
      out.rc = none ∧ out.background = none := by
  unfold sto.Fetch
  rw [hc, ho]
  exact ⟨_, rfl, rfl, hor, rfl⟩

/-- Claim C12 at the fresh engine of `TestMissingGetReturnsNoEnt`, whose two
backends are empty. -/
theorem fetch_not_found_witness :
    ∃ out, (NewCache 1048576).Fetch ⟨1, 0, 0⟩ ((MapStorage.mk []).Fetch ⟨1, 0, 0⟩)
        ((MapStorage.mk []).Fetch ⟨1, 0, 0⟩) = some out ∧
      out.err = some Error.ErrNotExist ∧ out.rc = none ∧ out.background = none :=
  fetch_not_found (NewCache 1048576) ⟨1, 0, 0⟩ _ _ rfl rfl rfl

/-- No receive lets the consumer reach its `break`: the error of `StatBlobs` is
never returned. -/
theorem consumerLoop_never_fails (n : Nat) (valid : SizedRef → Bool) (events : List Event)
    (ho mo : Bool) (st : ConsumerState) (e : Error) (d : List SizedRef) (s : sto) :
    consumerLoop n valid events ho mo st ≠ ConsumerOutcome.returned (some e) d s := by
  induction events generalizing ho mo st with
  | nil => intro h; cases h
  | cons ev rest ih =>
      unfold consumerLoop
      split
      · intro h; cases h
      · cases ev with
        | hit sb =>
            simp only []
            split
            · split
              · intro h; cases h
              · rw [if_neg (by simp)]
                exact ih _ _ _
            · exact ih _ _ _
        | hitsClosed => exact ih _ _ _
        | miss sb =>
            simp only []
            split
            · split
              · intro h; cases h
              · rw [if_neg (by simp)]
                exact ih _ _ _
            · exact ih _ _ _
        | missesClosed => exact ih _ _ _

/-- Claim C13, the code at the failing input.  For a request of one ref, when
both streams close without a result the consumer has returned nothing and is
blocked in its `select` over two nil channels; when the first of two requested
refs arrives and both streams close, it is blocked as well. -/
theorem statConsumer_blocks_after_close :
    (NewCache 0).statConsumer [⟨1, 0, 0⟩] (fun _ => true) [Event.hitsClosed, Event.missesClosed]
        = ConsumerOutcome.blocked [] (NewCache 0) ∧
      (NewCache 0).statConsumer [⟨1, 0, 0⟩, ⟨2, 0, 0⟩] (fun _ => true)
          [Event.hit ⟨⟨1, 0, 0⟩, 3⟩, Event.hitsClosed, Event.missesClosed]
        = ConsumerOutcome.blocked [⟨⟨1, 0, 0⟩, 3⟩] ((NewCache 0).touchStat ⟨⟨1, 0, 0⟩, 3⟩) :=
  ⟨rfl, rfl⟩

/-- Claim C17, the code at the failing input.  After `touchBlob` the LRU holds
the entry of the ref with `statOnly = false`; `touchStat` on the same ref
leaves `cacheBytes` and the stats receiver as they were and replaces the
entry by one with `statOnly = true`. -/
theorem touchStat_demotes :
    ((NewCache 100).touchBlob ⟨⟨1, 0, 0⟩, 5⟩).lru.entries
        = [(1, { sb := ⟨⟨1, 0, 0⟩, 5⟩, statOnly := false })] ∧
      (((NewCache 100).touchBlob ⟨⟨1, 0, 0⟩, 5⟩).touchStat ⟨⟨1, 0, 0⟩, 5⟩).lru.entries
        = [(1, { sb := ⟨⟨1, 0, 0⟩, 5⟩, statOnly := true })] ∧
      (((NewCache 100).touchBlob ⟨⟨1, 0, 0⟩, 5⟩).touchStat ⟨⟨1, 0, 0⟩, 5⟩).cacheBytes
        = ((NewCache 100).touchBlob ⟨⟨1, 0, 0⟩, 5⟩).cacheBytes ∧
      (((NewCache 100).touchBlob ⟨⟨1, 0, 0⟩, 5⟩).touchStat ⟨⟨1, 0, 0⟩, 5⟩).statsCache.sizes
        = ((NewCache 100).touchBlob ⟨⟨1, 0, 0⟩, 5⟩).statsCache.sizes := by
  decide

/-- A first touch by `touchStat` records the ref with its size. -/
theorem touchStat_records (s : sto) (sb : SizedRef) (h : s.lru.Get sb.Ref.key = none) :
    (s.touchStat sb).statsCache.stat sb.Ref = some (sb.Size : Int) := by
  unfold sto.touchStat
  simp only [h, Option.isSome_none, Bool.not_false, if_true]
  simp [stats.Receiver.stat, stats.Receiver.ReceiveRef]

/-- Claim C18, the code at the failing input.  The ref has no LRU entry in the
fresh engine; after `touchBlob` and the `touchStat` it spawns the stats
receiver holds nothing, so that a query for the ref finds no size. -/
theorem touchBlob_records_no_stat :
    (NewCache 100).lru.Get 1 = none ∧
      (((NewCache 100).touchBlob ⟨⟨1, 0, 0⟩, 5⟩).touchStat ⟨⟨1, 0, 0⟩, 5⟩).statsCache.stat
          ⟨1, 0, 0⟩ = none ∧
      (((NewCache 100).touchBlob ⟨⟨1, 0, 0⟩, 5⟩).touchStat ⟨⟨1, 0, 0⟩, 5⟩).statsCache.sizes = [] := by
  decide

theorem lru_getLast_eq {α : Type} (l : List α) (h : l ≠ []) :
    l.getLast? = some (l.getLast h) := List.getLast?_eq_getLast l h

/-- The oldest key of an LRU without repeated keys is not among the others. -/
theorem filter_dropLast_of_nodup (l : List (Nat × cacheEntry)) (h : l ≠ [])
    (hnd : (l.map Prod.fst).Nodup) :
    l.dropLast.filter (fun kv => kv.1 != (l.getLast h).1) = l.dropLast := by
  have hsplit : l = l.dropLast ++ [l.getLast h] := (List.dropLast_append_getLast h).symm
  rw [List.filter_eq_self]
  intro kv hkv
  rw [hsplit, List.map_append, List.nodup_append] at hnd
  have hdis := hnd.2.2
  have h1 : kv.1 ∈ l.dropLast.map Prod.fst := List.mem_map_of_mem _ hkv
  have hne : kv.1 ≠ (l.getLast h).1 := by
    intro heq
    exact hdis h1 (by rw [heq]; simp)
  simpa using hne

/-- A failed removal from the cache puts the oldest entry back at the front. -/
theorem removeOldest_failed (s : sto) (e : Error) (statsErr : Option Error)
    (hne : s.lru.entries ≠ []) (hnd : (s.lru.entries.map Prod.fst).Nodup) :
    ∃ s1, s.removeOldest (some e) statsErr = some s1 ∧
      s1.lru.entries = s.lru.entries.getLast hne :: s.lru.entries.dropLast ∧
      s1.cacheBytes = s.cacheBytes ∧ s1.statsCache = s.statsCache ∧
      s1.maxCacheBytes = s.maxCacheBytes ∧ s1.isCleaning = s.isCleaning := by
  unfold sto.removeOldest lru.Cache.RemoveOldest
  rw [lru_getLast_eq _ hne]
  refine ⟨_, rfl, ?_, rfl, rfl, rfl, rfl⟩
  simp only [lru.Cache.Add]
  rw [filter_dropLast_of_nodup _ hne hnd]

/-- Claim C15, counterexample.  With the entries of the refs 2 and 1 in the LRU,
1 being the oldest, a failed `cache.RemoveBlobs` leaves the entry of 1 at the
front and the entry of 2 at the back: the order is not the order before. -/
theorem removeOldest_failed_reorders :
    (((NewCache 0).touchStat ⟨⟨1, 0, 0⟩, 5⟩).touchStat ⟨⟨2, 0, 0⟩, 7⟩).lru.entries
        = [(2, { sb := ⟨⟨2, 0, 0⟩, 7⟩, statOnly := true }),
           (1, { sb := ⟨⟨1, 0, 0⟩, 5⟩, statOnly := true })] ∧
      ((((NewCache 0).touchStat ⟨⟨1, 0, 0⟩, 5⟩).touchStat ⟨⟨2, 0, 0⟩, 7⟩).removeOldest
          (some (Error.other 1)) none).map (fun s => s.lru.entries)
        = some [(1, { sb := ⟨⟨1, 0, 0⟩, 5⟩, statOnly := true }),
                (2, { sb := ⟨⟨2, 0, 0⟩, 7⟩, statOnly := true })] := by
  decide

/-- Claim C15, amended.  For every engine state whose LRU is not empty and holds
each key once, if `cache.RemoveBlobs` fails for the oldest entry during
`removeOldest`, then after the step the LRU holds the same entries, the oldest
one now at the front and the others in their order, and `cacheBytes` and the
stats receiver are unchanged. -/
theorem removeOldest_failed_moves_to_front (s : sto) (e : Error) (statsErr : Option Error)
    (hne : s.lru.entries ≠ []) (hnd : (s.lru.entries.map Prod.fst).Nodup) :
    ∃ s1, s.removeOldest (some e) statsErr = some s1 ∧
      s1.lru.entries = s.lru.entries.getLast hne :: s.lru.entries.dropLast ∧
      s1.cacheBytes = s.cacheBytes ∧ s1.statsCache = s.statsCache :=
  match removeOldest_failed s e statsErr hne hnd with
  | ⟨s1, h1, h2, h3, h4, _⟩ => ⟨s1, h1, h2, h3, h4⟩

/-- Claim C15, the amended statement at the state of the counterexample. -/
theorem removeOldest_failed_moves_to_front_witness :
    ∃ s1, (((NewCache 0).touchStat ⟨⟨1, 0, 0⟩, 5⟩).touchStat ⟨⟨2, 0, 0⟩, 7⟩).removeOldest
        (some (Error.other 1)) none = some s1 ∧
      s1.lru.entries
        = (((NewCache 0).touchStat ⟨⟨1, 0, 0⟩, 5⟩).touchStat ⟨⟨2, 0, 0⟩, 7⟩).lru.entries.getLast
            (by decide)
          :: (((NewCache 0).touchStat ⟨⟨1, 0, 0⟩, 5⟩).touchStat ⟨⟨2, 0, 0⟩, 7⟩).lru.entries.dropLast ∧
      s1.cacheBytes = (((NewCache 0).touchStat ⟨⟨1, 0, 0⟩, 5⟩).touchStat ⟨⟨2, 0, 0⟩, 7⟩).cacheBytes ∧
      s1.statsCache = (((NewCache 0).touchStat ⟨⟨1, 0, 0⟩, 5⟩).touchStat ⟨⟨2, 0, 0⟩, 7⟩).statsCache :=
  removeOldest_failed_moves_to_front
    (((NewCache 0).touchStat ⟨⟨1, 0, 0⟩, 5⟩).touchStat ⟨⟨2, 0, 0⟩, 7⟩) (Error.other 1) none
    (by decide) (by decide)

/-- While every removal from the cache fails, the loop of the cleaner is still
running after any number of iterations. -/
theorem cleanLoop_spins (answers : Nat → Option Error × Option Error)
    (hfail : ∀ i, ∃ e, (answers i).1 = some e) (fuel : Nat) (s : sto) (i : Nat)
    (hneed : s.needsRemoval = true) (hne : s.lru.entries ≠ [])
    (hnd : (s.lru.entries.map Prod.fst).Nodup) :
    ∃ s1, sto.cleanLoop fuel s answers i = CleanOutcome.running s1 ∧
      s1.needsRemoval = true ∧ s1.isCleaning = s.isCleaning := by
  induction fuel generalizing s i with
  | zero =>
      unfold sto.cleanLoop
      rw [if_pos hneed]
      exact ⟨s, rfl, hneed, rfl⟩
  | succ fuel ih =>
      unfold sto.cleanLoop
      rw [if_pos hneed]
      obtain ⟨e, he⟩ := hfail i
      obtain ⟨s1, h1, h2, h3, _, h5, h6⟩ := removeOldest_failed s e (answers i).2 hne hnd
      rw [he, h1]
      have hneed1 : s1.needsRemoval = true := by
        unfold sto.needsRemoval at hneed ⊢
        rw [h3, h5]
        exact hneed
      have hne1 : s1.lru.entries ≠ [] := by rw [h2]; simp
      have hnd1 : (s1.lru.entries.map Prod.fst).Nodup := by
        rw [h2]
        have hsplit : s.lru.entries = s.lru.entries.dropLast ++ [s.lru.entries.getLast hne] :=
          (List.dropLast_append_getLast hne).symm
        rw [hsplit] at hnd
        rw [List.map_append, List.nodup_append] at hnd
        rw [List.map_cons, List.nodup_cons]
        refine ⟨?_, hnd.1⟩
        intro hmem
        exact hnd.2.2 hmem (by simp)
      obtain ⟨s2, h7, h8, h9⟩ := ih s1 (i + 1) hneed1 hne1 hnd1
      exact ⟨s2, h7, h8, by rw [h9, h6]⟩

/-- Claim C16, the code at the failing input.  With `maxCacheBytes = 0`, one
blob of 5 bytes in the LRU and a cache whose `RemoveBlobs` always fails, the
pass is still in its loop after any number of iterations, with `isCleaning`
set and `cacheBytes` above the maximum: it makes a further eviction attempt
after every failure and does not end. -/
theorem cleanCache_never_ends (fuel : Nat) :
    ∃ s1, sto.cleanCache fuel ((NewCache 0).touchBlob ⟨⟨1, 0, 0⟩, 5⟩)
        (fun _ => (some (Error.other 1), none)) = CleanOutcome.running s1 ∧
      s1.isCleaning = true ∧ s1.needsRemoval = true := by
  obtain ⟨s1, h1, h2, h3⟩ := cleanLoop_spins (fun _ => (some (Error.other 1), none))
    (fun _ => ⟨_, rfl⟩) fuel { (NewCache 0).touchBlob ⟨⟨1, 0, 0⟩, 5⟩ with isCleaning := true } 0
    (by decide) (by decide) (by decide)
  refine ⟨s1, ?_, h3, h2⟩
  unfold sto.cleanCache
  rw [if_neg (by decide), h1]

theorem mapStorage_fetch_receive (m : MapStorage) (b : Ref) (bytes : List Byte) :
    (m.ReceiveBlob b bytes).2.Fetch b = { rc := some bytes, size := bytes.length, err := none } := by
  simp [MapStorage.ReceiveBlob, MapStorage.Fetch]

theorem find?_filter_key (l : List (Ref × List Byte)) (b : Ref) (q : Ref → Bool) :
    (l.filter (fun p => q p.1)).find? (fun p => p.1 == b)
      = if q b = true then l.find? (fun p => p.1 == b) else none := by
  induction l with
  | nil => simp
  | cons x rest ih =>
      by_cases hx : x.1 = b
      · by_cases hq : q b = true
        · have hqx : q x.1 = true := by rw [hx]; exact hq
          simp [List.filter_cons, hqx, hx, hq]
        · have hqx : ¬ q x.1 = true := by rw [hx]; exact hq
          simp [List.filter_cons, hqx, ih, hq]
      · by_cases hqx : q x.1 = true
        · simp only [List.filter_cons, hqx, if_true, List.find?_cons]
          have : (x.1 == b) = false := by simpa using hx
          rw [this]
          exact ih
        · simp only [List.filter_cons, hqx, if_false, List.find?_cons]
          have : (x.1 == b) = false := by simpa using hx
          rw [this]
          exact ih

/-- After a removal a map backend answers as before or reports not-found. -/
theorem mapStorage_fetch_remove (m : MapStorage) (refs : List Ref) (b : Ref) :
    (m.RemoveBlobs refs).2.Fetch b = m.Fetch b ∨
      (m.RemoveBlobs refs).2.Fetch b = { rc := none, size := 0, err := some Error.ErrNotExist } := by
  unfold MapStorage.RemoveBlobs MapStorage.Fetch
  simp only []
  rw [find?_filter_key m.blobs b (fun r => !(refs.contains r))]
  by_cases h : (!(refs.contains b)) = true
  · left; rw [if_pos h]
  · right; rw [if_neg h]

/-- What an eviction step changes of the backends. -/
theorem engine_removeOldest_backends (e e2 : Engine) (h : e.removeOldest = some e2) :
    e2.origin = e.origin ∧ ∃ refs, e2.cache = (e.cache.RemoveBlobs refs).2 := by
  unfold Engine.removeOldest at h
  split at h
  · cases h
  · rename_i k entry l heq
    simp only [Option.map_eq_some'] at h
    obtain ⟨s1, _, hs⟩ := h
    subst hs
    exact ⟨rfl, [entry.sb.Ref], rfl⟩

/-- The blob stays in the origin and, while in the cache, unchanged there. -/
theorem evicted_backends (e e2 : Engine) (br : Ref) (ans : FetchAnswer)
    (h : Evicted e e2) (ho : e.origin.Fetch br = ans) (hc : e.cache.Fetch br = ans) :
    e2.origin.Fetch br = ans ∧
      (e2.cache.Fetch br = ans ∨
        e2.cache.Fetch br = { rc := none, size := 0, err := some Error.ErrNotExist }) := by
  induction h with
  | refl => exact ⟨ho, Or.inl hc⟩
  | step e1 e3 _ _ hstep ih =>
      obtain ⟨horig, refs, hcache⟩ := engine_removeOldest_backends e1 e3 hstep
      refine ⟨by rw [horig]; exact ih.1, ?_⟩
      rw [hcache]
      rcases mapStorage_fetch_remove e1.cache refs br with h1 | h1
      · rw [h1]; exact ih.2
      · right; exact h1

theorem engine_fetch_of_backends (e : Engine) (br : Ref) (bytes : List Byte)
    (ho : e.origin.Fetch br = { rc := some bytes, size := bytes.length, err := none })
    (hc : e.cache.Fetch br = { rc := some bytes, size := bytes.length, err := none } ∨
      e.cache.Fetch br = { rc := none, size := 0, err := some Error.ErrNotExist }) :
    ∃ e3, e.Fetch br = some ({ rc := some bytes, size := bytes.length, err := none }, e3) := by
  unfold Engine.Fetch sto.Fetch
  rcases hc with hc | hc
  · rw [hc]; exact ⟨_, rfl⟩
  · rw [hc, ho]; exact ⟨_, rfl⟩

theorem engine_receive_fetch (e : Engine) (br : Ref) (bytes : List Byte) (e2 : Engine)
    (h : Evicted (e.ReceiveBlob br bytes).2 e2) :
    (e.ReceiveBlob br bytes).1 = { sb := { Ref := br, Size := bytes.length }, err := none } ∧
      ∃ e3, e2.Fetch br = some ({ rc := some bytes, size := bytes.length, err := none }, e3) := by
  refine ⟨rfl, ?_⟩
  have hb := evicted_backends (e.ReceiveBlob br bytes).2 e2 br
    { rc := some bytes, size := bytes.length, err := none } h
    (mapStorage_fetch_receive e.origin br bytes) (mapStorage_fetch_receive e.cache br bytes)
  exact engine_fetch_of_backends e2 br bytes hb.1 hb.2

theorem received_closed (events : List Event) : received events false false = [] := by
  induction events with
  | nil => rfl
  | cons ev rest ih =>
      cases ev <;> simp [received, ih]

theorem receiveValue_new (valid : SizedRef → Bool) (st : ConsumerState) (sb : SizedRef)
    (h : valid sb = true ∧ st.seen.contains sb.Ref = false) :
    (receiveValue valid st sb).seen = st.seen ++ [sb.Ref] ∧
      (receiveValue valid st sb).dest = st.dest ++ [sb] := by
  unfold receiveValue
  rw [if_pos h.1, if_neg (by rw [h.2]; simp)]
  exact ⟨rfl, rfl⟩

theorem receiveValue_old (valid : SizedRef → Bool) (st : ConsumerState) (sb : SizedRef)
    (h : ¬ (valid sb = true ∧ st.seen.contains sb.Ref = false)) :
    (receiveValue valid st sb).seen = st.seen ∧ (receiveValue valid st sb).dest = st.dest := by
  unfold receiveValue
  by_cases hv : valid sb = true
  · have hc : st.seen.contains sb.Ref = true := by
      cases hcon : st.seen.contains sb.Ref
      · exact absurd ⟨hv, hcon⟩ h
      · rfl
    rw [if_pos hv, if_pos hc]
    exact ⟨rfl, rfl⟩
  · rw [if_neg hv]
    exact ⟨rfl, rfl⟩

/-- What the consumer does with a sized ref it receives. -/
theorem consumer_value_step (n : Nat) (valid : SizedRef → Bool) (sb : SizedRef)
    (R : List SizedRef) (st : ConsumerState) (out : ConsumerOutcome) (hlt : st.seen.length < n)
    (hret : (receiveValue valid st sb).seen.length = n →
      out.dest = (receiveValue valid st sb).dest)
    (hcont : (receiveValue valid st sb).seen.length < n →
      out.dest = (receiveValue valid st sb).dest ++
        (firstOccurrences valid R (receiveValue valid st sb).seen).take
          (n - (receiveValue valid st sb).seen.length)) :
    out.dest = st.dest ++
      (firstOccurrences valid (sb :: R) st.seen).take (n - st.seen.length) := by
  by_cases h : valid sb = true ∧ st.seen.contains sb.Ref = false
  · obtain ⟨hs, hd⟩ := receiveValue_new valid st sb h
    have hfo : firstOccurrences valid (sb :: R) st.seen
        = sb :: firstOccurrences valid R (st.seen ++ [sb.Ref]) := by
      simp only [firstOccurrences]
      rw [if_pos h]
    rw [hfo]
    have hlen : (st.seen ++ [sb.Ref]).length = st.seen.length + 1 := by simp
    by_cases heq : st.seen.length + 1 = n
    · have h1 := hret (by rw [hs, hlen]; exact heq)
      rw [h1, hd]
      have : n - st.seen.length = 1 := by omega
      rw [this]
      simp
    · have h1 := hcont (by rw [hs, hlen]; omega)
      rw [h1, hd, hs, hlen]
      have : n - st.seen.length = (n - (st.seen.length + 1)) + 1 := by omega
      rw [this, List.take_succ_cons]
      simp
  · obtain ⟨hs, hd⟩ := receiveValue_old valid st sb h
    have hfo : firstOccurrences valid (sb :: R) st.seen = firstOccurrences valid R st.seen := by
      simp only [firstOccurrences]
      rw [if_neg h]
    rw [hfo]
    have h1 := hcont (by rw [hs]; exact hlt)
    rw [h1, hd, hs]

/-- While fewer than `n` refs are seen, the consumer appends to `dest` the
first occurrences of the valid refs it receives, up to the `n`-th seen ref. -/
theorem consumerLoop_dest (n : Nat) (valid : SizedRef → Bool) (events : List Event)
    (ho mo : Bool) (st : ConsumerState) (hlt : st.seen.length < n) :
    (consumerLoop n valid events ho mo st).dest = st.dest ++
      (firstOccurrences valid (received events ho mo) st.seen).take (n - st.seen.length) := by
  induction events generalizing ho mo st with
  | nil => simp [consumerLoop, ConsumerOutcome.dest, received, firstOccurrences]
  | cons ev rest ih =>
      unfold consumerLoop
      split
      · rename_i hclosed
        rw [hclosed.1, hclosed.2, received_closed]
        simp [ConsumerOutcome.dest, firstOccurrences]
      · cases ev with
        | hit sb =>
            simp only []
            by_cases hho : ho = true
            · rw [if_pos hho]
              have hrec : received (Event.hit sb :: rest) ho mo = sb :: received rest ho mo := by
                simp [received, hho]
              rw [hrec]
              apply consumer_value_step n valid sb _ st _ hlt
              · intro heq
                rw [if_pos heq]
                rfl
              · intro hlt1
                rw [if_neg (by omega), if_neg (by simp)]
                exact ih ho mo _ hlt1
            · rw [if_neg hho]
              have hrec : received (Event.hit sb :: rest) ho mo = received rest ho mo := by
                simp [received, hho]
              rw [hrec]
              exact ih ho mo st hlt
        | hitsClosed =>
            simp only []
            have hrec : received (Event.hitsClosed :: rest) ho mo = received rest false mo := by
              simp [received]
            rw [hrec]
            exact ih false mo st hlt
        | miss sb =>
            simp only []
            by_cases hmo : mo = true
            · rw [if_pos hmo]
              have hrec : received (Event.miss sb :: rest) ho mo = sb :: received rest ho mo := by
                simp [received, hmo]
              rw [hrec]
              apply consumer_value_step n valid sb _ st _ hlt
              · intro heq
                rw [if_pos heq]
                rfl
              · intro hlt1
                rw [if_neg (by omega), if_neg (by simp)]
                exact ih ho mo _ hlt1
            · rw [if_neg hmo]
              have hrec : received (Event.miss sb :: rest) ho mo = received rest ho mo := by
                simp [received, hmo]
              rw [hrec]
              exact ih ho mo st hlt
        | missesClosed =>
            simp only []
            have hrec : received (Event.missesClosed :: rest) ho mo = received rest ho false := by
              simp [received]
            rw [hrec]
            exact ih ho false st hlt

theorem receiveValue_invalid (valid : SizedRef → Bool) (st : ConsumerState) (sb : SizedRef)
    (h : valid sb = false) : receiveValue valid st sb = st := by
  unfold receiveValue
  rw [if_neg (by rw [h]; simp)]

/-- A consumer that receives no valid sized ref sends nothing. -/
theorem consumerLoop_dest_invalid (n : Nat) (valid : SizedRef → Bool) (events : List Event)
    (ho mo : Bool) (st : ConsumerState)
    (h : ∀ sb, sb ∈ received events ho mo → valid sb = false) :
    (consumerLoop n valid events ho mo st).dest = st.dest := by
  induction events generalizing ho mo st with
  | nil => rfl
  | cons ev rest ih =>
      unfold consumerLoop
      split
      · rfl
      · cases ev with
        | hit sb =>
            simp only []
            by_cases hho : ho = true
            · rw [if_pos hho]
              have hrec : received (Event.hit sb :: rest) ho mo = sb :: received rest ho mo := by
                simp [received, hho]
              rw [hrec] at h
              rw [receiveValue_invalid valid st sb (h sb (List.mem_cons_self _ _))]
              split
              · rfl
              · rw [if_neg (by simp)]
                exact ih ho mo st (fun x hx => h x (List.mem_cons_of_mem _ hx))
            · rw [if_neg hho]
              have hrec : received (Event.hit sb :: rest) ho mo = received rest ho mo := by
                simp [received, hho]
              rw [hrec] at h
              exact ih ho mo st h
        | hitsClosed =>
            simp only []
            have hrec : received (Event.hitsClosed :: rest) ho mo = received rest false mo := by
              simp [received]
            rw [hrec] at h
            exact ih false mo st h
        | miss sb =>
            simp only []
            by_cases hmo : mo = true
            · rw [if_pos hmo]
              have hrec : received (Event.miss sb :: rest) ho mo = sb :: received rest ho mo := by
                simp [received, hmo]
              rw [hrec] at h
              rw [receiveValue_invalid valid st sb (h sb (List.mem_cons_self _ _))]
              split
              · rfl
              · rw [if_neg (by simp)]
                exact ih ho mo st (fun x hx => h x (List.mem_cons_of_mem _ hx))
            · rw [if_neg hmo]
              have hrec : received (Event.miss sb :: rest) ho mo = received rest ho mo := by
                simp [received, hmo]
              rw [hrec] at h
              exact ih ho mo st h
        | missesClosed =>
            simp only []
            have hrec : received (Event.missesClosed :: rest) ho mo = received rest ho false := by
              simp [received]
            rw [hrec] at h
            exact ih ho false st h

/-- The first occurrences carry each ref once, and none that was seen before. -/
theorem firstOccurrences_nodup (valid : SizedRef → Bool) (l : List SizedRef) (seen : List Ref) :
    ((firstOccurrences valid l seen).map SizedRef.Ref).Nodup ∧
      ∀ r, r ∈ (firstOccurrences valid l seen).map SizedRef.Ref → r ∉ seen := by
  induction l generalizing seen with
  | nil => simp [firstOccurrences]
  | cons sb rest ih =>
      simp only [firstOccurrences]
      by_cases h : valid sb = true ∧ seen.contains sb.Ref = false
      · rw [if_pos h]
        obtain ⟨hnd, hdis⟩ := ih (seen ++ [sb.Ref])
        have hnot : sb.Ref ∉ seen := by
          have := h.2
          simpa using this
        refine ⟨?_, ?_⟩
        · rw [List.map_cons, List.nodup_cons]
          refine ⟨?_, hnd⟩
          intro hmem
          exact hdis _ hmem (by simp)
        · intro r hr
          rw [List.map_cons, List.mem_cons] at hr
          rcases hr with rfl | hr
          · exact hnot
          · intro hmem
            exact hdis r hr (List.mem_append_left _ hmem)
      · rw [if_neg h]
        exact ih seen

theorem statConsumer_dest_eq (s : sto) (blobs : List Ref) (valid : SizedRef → Bool)
    (events : List Event)
    (hreq : ∀ sb, sb ∈ received events true true → valid sb = true → sb.Ref ∈ blobs) :
    (s.statConsumer blobs valid events).dest
        = (firstOccurrences valid (received events true true) []).take blobs.length ∧
      ((s.statConsumer blobs valid events).dest.map SizedRef.Ref).Nodup := by
  have hmain : (s.statConsumer blobs valid events).dest
      = (firstOccurrences valid (received events true true) []).take blobs.length := by
    unfold sto.statConsumer
    cases blobs with
    | nil =>
        have hinv : ∀ sb, sb ∈ received events true true → valid sb = false := by
          intro sb hsb
          cases hv : valid sb
          · rfl
          · exact absurd (hreq sb hsb hv) (List.not_mem_nil _)
        rw [consumerLoop_dest_invalid _ valid events true true _ hinv]
        simp
    | cons b rest =>
        have := consumerLoop_dest (b :: rest).length valid events true true
          { seen := [], dest := [], store := s } (by simp)
        rw [this]
        simp
  refine ⟨hmain, ?_⟩
  rw [hmain, List.map_take]
  exact List.Nodup.sublist (List.take_sublist _ _) (firstOccurrences_nodup valid _ []).1

theorem wrapInt64_le (x : Int) (h : -2 ^ 63 ≤ x) : wrapInt64 x ≤ x := by
  unfold wrapInt64; omega

theorem wrapInt64_range (x : Int) : -2 ^ 63 ≤ wrapInt64 x ∧ wrapInt64 x < 2 ^ 63 := by
  unfold wrapInt64; omega

theorem wrapInt64_id (x : Int) (h1 : -2 ^ 63 ≤ x) (h2 : x < 2 ^ 63) : wrapInt64 x = x := by
  unfold wrapInt64; omega

theorem lruBytes_nonneg (l : List (Nat × cacheEntry)) : 0 ≤ lruBytes l := by
  induction l with
  | nil => simp [lruBytes]
  | cons x rest ih =>
      simp only [lruBytes, List.map_cons, List.sum_cons] at ih ⊢
      omega

theorem get_isSome_iff (c : lru.Cache cacheEntry) (key : Nat) :
    (c.Get key).isSome = true ↔ key ∈ c.entries.map Prod.fst := by
  unfold lru.Cache.Get
  rw [Option.isSome_map']
  rw [List.find?_isSome]
  simp

theorem filter_key_of_not_mem (l : List (Nat × cacheEntry)) (k : Nat)
    (h : k ∉ l.map Prod.fst) : l.filter (fun kv => kv.1 != k) = l := by
  rw [List.filter_eq_self]
  intro kv hkv
  have : kv.1 ≠ k := by
    intro heq
    exact h (by rw [← heq]; exact List.mem_map_of_mem _ hkv)
  simpa using this

/-- Taking a key out of an LRU that holds it once takes out its size. -/
theorem lruBytes_filter (size : Nat → Nat) (l : List (Nat × cacheEntry)) (k : Nat)
    (hnd : (l.map Prod.fst).Nodup) (hsz : ∀ kv, kv ∈ l → kv.2.sb.Size = size kv.1) :
    lruBytes l = lruBytes (l.filter (fun kv => kv.1 != k))
      + (if k ∈ l.map Prod.fst then (size k : Int) else 0) := by
  induction l with
  | nil => simp [lruBytes]
  | cons x rest ih =>
      rw [List.map_cons, List.nodup_cons] at hnd
      have ih1 := ih hnd.2 (fun kv hkv => hsz kv (List.mem_cons_of_mem _ hkv))
      by_cases hx : x.1 = k
      · have hk : k ∉ rest.map Prod.fst := by rw [← hx]; exact hnd.1
        have hfilt : (x :: rest).filter (fun kv => kv.1 != k) = rest := by
          rw [List.filter_cons, if_neg (by simp [hx]), filter_key_of_not_mem rest k hk]
        rw [hfilt, if_pos (by rw [List.map_cons, ← hx]; exact List.mem_cons_self _ _)]
        have := hsz x (List.mem_cons_self _ _)
        simp only [lruBytes, List.map_cons, List.sum_cons]
        rw [this, hx]
        omega
      · have hfilt : (x :: rest).filter (fun kv => kv.1 != k)
            = x :: rest.filter (fun kv => kv.1 != k) := by
          rw [List.filter_cons, if_pos (by simpa using hx)]
        have hmem : (k ∈ (x :: rest).map Prod.fst) ↔ (k ∈ rest.map Prod.fst) := by
          rw [List.map_cons, List.mem_cons]
          constructor
          · rintro (h | h)
            · exact absurd h.symm hx
            · exact h
          · exact Or.inr
        rw [hfilt]
        simp only [hmem]
        simp only [lruBytes, List.map_cons, List.sum_cons] at ih1 ⊢
        omega

/-- What `Add` of an entry of the right size does to the invariants of the LRU. -/
theorem add_accounted (size : Nat → Nat) (c : lru.Cache cacheEntry) (key : Nat)
    (entry : cacheEntry) (hnd : (c.entries.map Prod.fst).Nodup)
    (hsz : ∀ kv, kv ∈ c.entries → kv.2.sb.Size = size kv.1) (he : entry.sb.Size = size key) :
    ((c.Add key entry).entries.map Prod.fst).Nodup ∧
      (∀ kv, kv ∈ (c.Add key entry).entries → kv.2.sb.Size = size kv.1) ∧
      lruBytes (c.Add key entry).entries
        = lruBytes c.entries + (if key ∈ c.entries.map Prod.fst then 0 else (size key : Int)) := by
  unfold lru.Cache.Add
  simp only []
  refine ⟨?_, ?_, ?_⟩
  · rw [List.map_cons, List.nodup_cons]
    refine ⟨?_, List.Nodup.sublist (List.Sublist.map _ (List.filter_sublist _)) hnd⟩
    intro hmem
    rw [List.mem_map] at hmem
    obtain ⟨kv, hkv, hkey⟩ := hmem
    have := (List.mem_filter.1 hkv).2
    simp only [bne_iff_ne, ne_eq] at this
    exact this hkey
  · intro kv hkv
    rcases List.mem_cons.1 hkv with rfl | hmem
    · exact he
    · exact hsz kv (List.mem_filter.1 hmem).1
  · have h := lruBytes_filter size c.entries key hnd hsz
    have hcons : lruBytes ((key, entry) :: c.entries.filter (fun kv => kv.1 != key))
        = (size key : Int) + lruBytes (c.entries.filter (fun kv => kv.1 != key)) := by
      simp only [lruBytes, List.map_cons, List.sum_cons]
      rw [he]
    rw [hcons, h]
    by_cases hk : key ∈ c.entries.map Prod.fst
    · rw [if_pos hk, if_pos hk]; omega
    · rw [if_neg hk, if_neg hk]; omega

theorem touchBlob_accounted (size : Nat → Nat) (s : sto) (r : Ref) (h : Accounted size s) :
    Accounted size (s.touchBlob { Ref := r, Size := size r.key }) ∧
      (s.touchBlob { Ref := r, Size := size r.key }).maxCacheBytes = s.maxCacheBytes ∧
      (s.touchBlob { Ref := r, Size := size r.key }).isCleaning = s.isCleaning := by
  obtain ⟨hnd, hsz, hle, hlo, hhi⟩ := h
  obtain ⟨a1, a2, a3⟩ := add_accounted size s.lru r.key
    { sb := { Ref := r, Size := size r.key }, statOnly := false } hnd hsz rfl
  unfold sto.touchBlob
  simp only []
  by_cases hold : (s.lru.Get r.key).isSome = true
  · have hk := (get_isSome_iff s.lru r.key).1 hold
    rw [if_neg (by rw [hold]; simp)]
    rw [if_pos hk] at a3
    exact ⟨⟨a1, a2, by rw [a3]; simpa using hle, hlo, hhi⟩, rfl, rfl⟩
  · have hk : r.key ∉ s.lru.entries.map Prod.fst := fun hmem =>
      hold ((get_isSome_iff s.lru r.key).2 hmem)
    rw [if_pos (by simpa using hold)]
    rw [if_neg hk] at a3
    have hw := wrapInt64_le (s.cacheBytes + (size r.key : Int)) (by omega)
    have hr := wrapInt64_range (s.cacheBytes + (size r.key : Int))
    refine ⟨⟨a1, a2, ?_, hr.1, hr.2⟩, rfl, rfl⟩
    show wrapInt64 (s.cacheBytes + (size r.key : Int)) ≤ _
    rw [a3]
    omega

theorem touchStat_accounted (size : Nat → Nat) (s : sto) (r : Ref) (h : Accounted size s) :
    Accounted size (s.touchStat { Ref := r, Size := size r.key }) ∧
      (s.touchStat { Ref := r, Size := size r.key }).maxCacheBytes = s.maxCacheBytes ∧
      (s.touchStat { Ref := r, Size := size r.key }).isCleaning = s.isCleaning := by
  obtain ⟨hnd, hsz, hle, hlo, hhi⟩ := h
  obtain ⟨a1, a2, a3⟩ := add_accounted size s.lru r.key
    { sb := { Ref := r, Size := size r.key }, statOnly := true } hnd hsz rfl
  have hge : lruBytes s.lru.entries
      ≤ lruBytes (s.lru.Add r.key
          { sb := { Ref := r, Size := size r.key }, statOnly := true }).entries := by
    rw [a3]
    split <;> omega
  unfold sto.touchStat
  simp only []
  split
  · exact ⟨⟨a1, a2, le_trans hle hge, hlo, hhi⟩, rfl, rfl⟩
  · exact ⟨⟨a1, a2, le_trans hle hge, hlo, hhi⟩, rfl, rfl⟩

theorem lruBytes_dropLast (l : List (Nat × cacheEntry)) (h : l ≠ []) :
    lruBytes l = lruBytes l.dropLast + ((l.getLast h).2.sb.Size : Int) := by
  have hsplit : l = l.dropLast ++ [l.getLast h] := (List.dropLast_append_getLast h).symm
  conv_lhs => rw [hsplit]
  simp [lruBytes]

/-- An eviction whose removals succeed takes the oldest entry and its size. -/
theorem removeOldest_accounted (size : Nat → Nat) (s : sto) (hsize : ∀ k, size k < 2 ^ 32)
    (hmax : 0 ≤ s.maxCacheBytes) (h : Accounted size s) (hneed : s.needsRemoval = true) :
    s.lru.entries ≠ [] ∧
      ∃ s1, s.removeOldest none none = some s1 ∧ Accounted size s1 ∧
        s1.lru.entries = s.lru.entries.dropLast ∧ s1.maxCacheBytes = s.maxCacheBytes ∧
        s1.isCleaning = s.isCleaning := by
  obtain ⟨hnd, hsz, hle, hlo, hhi⟩ := h
  have hpos : s.maxCacheBytes < s.cacheBytes := by
    unfold sto.needsRemoval at hneed
    simpa using hneed
  have hne : s.lru.entries ≠ [] := by
    intro hnil
    rw [hnil] at hle
    simp [lruBytes] at hle
    omega
  refine ⟨hne, ?_⟩
  unfold sto.removeOldest lru.Cache.RemoveOldest
  rw [lru_getLast_eq _ hne]
  refine ⟨_, rfl, ?_, rfl, rfl, rfl⟩
  have hlast := hsz _ (List.getLast_mem hne)
  have hbound := hsize (s.lru.entries.getLast hne).1
  have hdl := lruBytes_dropLast s.lru.entries hne
  have hwid := wrapInt64_id (s.cacheBytes - ((s.lru.entries.getLast hne).2.sb.Size : Int))
    (by rw [hlast]; omega) (by omega)
  refine ⟨List.Nodup.sublist (List.Sublist.map _ (List.dropLast_sublist _)) hnd, ?_, ?_, ?_, ?_⟩
  · intro kv hkv
    exact hsz kv (List.mem_of_mem_dropLast hkv)
  · show wrapInt64 _ ≤ lruBytes s.lru.entries.dropLast
    rw [hwid]
    omega
  · show -2 ^ 63 ≤ wrapInt64 _
    exact (wrapInt64_range _).1
  · show wrapInt64 _ < 2 ^ 63
    exact (wrapInt64_range _).2

theorem newCache_accounted (size : Nat → Nat) (maxBytes : Int) :
    Accounted size (NewCache maxBytes) := by
  refine ⟨by simp [NewCache, lru.New], ?_, ?_, ?_, ?_⟩
  · intro kv hkv
    simp [NewCache, lru.New] at hkv
  · simp [NewCache, lru.New, lruBytes]
  · simp [NewCache]
  · simp [NewCache]

/-- Every state reached with one size per ref and successful removals satisfies
the accounting invariant, keeps the maximum and has no pass running. -/
theorem reachableSized_accounted (size : Nat → Nat) (maxBytes : Int) (s : sto)
    (hsize : ∀ k, size k < 2 ^ 32) (hmax : 0 ≤ maxBytes) (h : ReachableSized size maxBytes s) :
    Accounted size s ∧ s.maxCacheBytes = maxBytes ∧ s.isCleaning = false := by
  induction h with
  | init => exact ⟨newCache_accounted size maxBytes, rfl, rfl⟩
  | touchBlob s r _ ih =>
      obtain ⟨b1, b2, b3⟩ := touchBlob_accounted size s r ih.1
      obtain ⟨c1, c2, c3⟩ := touchStat_accounted size _ r b1
      exact ⟨c1, by rw [c2, b2]; exact ih.2.1, by rw [c3, b3]; exact ih.2.2⟩
  | touchStat s r _ ih =>
      obtain ⟨c1, c2, c3⟩ := touchStat_accounted size s r ih.1
      exact ⟨c1, by rw [c2]; exact ih.2.1, by rw [c3]; exact ih.2.2⟩
  | evict s s1 _ hneed hstep ih =>
      obtain ⟨_, s2, h2, hacc, _, hm, hc⟩ :=
        removeOldest_accounted size s hsize (by rw [ih.2.1]; exact hmax) ih.1 hneed
      rw [h2] at hstep
      cases hstep
      exact ⟨hacc, by rw [hm]; exact ih.2.1, by rw [hc]; exact ih.2.2⟩

/-- With successful removals the loop of the cleaner ends within as many
iterations as the LRU has entries. -/
theorem cleanLoop_finishes (size : Nat → Nat) (hsize : ∀ k, size k < 2 ^ 32) (fuel : Nat)
    (s : sto) (i : Nat) (hmax : 0 ≤ s.maxCacheBytes) (h : Accounted size s)
    (hfuel : s.lru.entries.length ≤ fuel) :
    ∃ s1 n, sto.cleanLoop fuel s (fun _ => (none, none)) i = CleanOutcome.finished s1 (i + n) ∧
      n ≤ s.lru.entries.length ∧
      s1.lru.entries = s.lru.entries.take (s.lru.entries.length - n) ∧
      s1.cacheBytes ≤ s1.maxCacheBytes ∧ s1.maxCacheBytes = s.maxCacheBytes ∧
      s1.isCleaning = s.isCleaning := by
  induction fuel generalizing s i with
  | zero =>
      have hnil : s.lru.entries = [] := List.length_eq_zero.1 (by omega)
      have hno : ¬ s.needsRemoval = true := fun hneed =>
        (removeOldest_accounted size s hsize hmax h hneed).1 hnil
      unfold sto.cleanLoop
      rw [if_neg hno]
      refine ⟨s, 0, rfl, by omega, by simp [hnil], ?_, rfl, rfl⟩
      unfold sto.needsRemoval at hno
      simpa using hno
  | succ fuel ih =>
      unfold sto.cleanLoop
      by_cases hneed : s.needsRemoval = true
      · rw [if_pos hneed]
        obtain ⟨hne, s1, h1, hacc, hent, hm, hc⟩ :=
          removeOldest_accounted size s hsize hmax h hneed
        simp only []
        rw [h1]
        have hlen : s1.lru.entries.length = s.lru.entries.length - 1 := by
          rw [hent, List.length_dropLast]
        have hpos : 0 < s.lru.entries.length := List.length_pos.2 hne
        obtain ⟨s2, n, g1, g2, g3, g4, g5, g6⟩ :=
          ih s1 (i + 1) (by rw [hm]; exact hmax) hacc (by omega)
        refine ⟨s2, n + 1, ?_, by omega, ?_, g4, by rw [g5, hm], by rw [g6, hc]⟩
        · show sto.cleanLoop fuel s1 (fun _ => (none, none)) (i + 1) = _
          rw [g1]
          congr 1
          omega
        · rw [g3, hent, List.length_dropLast, List.dropLast_eq_take, List.take_take]
          congr 1
          omega
      · rw [if_neg hneed]
        refine ⟨s, 0, rfl, by omega, by simp, ?_, rfl, rfl⟩
        unfold sto.needsRemoval at hneed
        simpa using hneed

theorem cleanCache_finishes (size : Nat → Nat) (maxBytes : Int) (s : sto)
    (hsize : ∀ k, size k < 2 ^ 32) (hmax : 0 ≤ maxBytes) (h : ReachableSized size maxBytes s) :
    (s.needsRemoval = true → s.lru.entries ≠ []) ∧
      ∀ fuel, s.lru.entries.length ≤ fuel →
        ∃ s1 n, sto.cleanCache fuel s (fun _ => (none, none)) = CleanOutcome.finished s1 n ∧
          n ≤ s.lru.entries.length ∧
          s1.lru.entries = s.lru.entries.take (s.lru.entries.length - n) ∧
          s1.cacheBytes ≤ maxBytes ∧ s1.isCleaning = false := by
  obtain ⟨hacc, hm, hc⟩ := reachableSized_accounted size maxBytes s hsize hmax h
  refine ⟨fun hneed =>
    (removeOldest_accounted size s hsize (by rw [hm]; exact hmax) hacc hneed).1, ?_⟩
  intro fuel hfuel
  have hacc1 : Accounted size { s with isCleaning := true } := hacc
  obtain ⟨s1, n, g1, g2, g3, g4, g5, _⟩ :=
    cleanLoop_finishes size hsize fuel { s with isCleaning := true } 0
      (by show 0 ≤ s.maxCacheBytes; rw [hm]; exact hmax) hacc1 hfuel
  refine ⟨{ s1 with isCleaning := false }, n, ?_, g2, g3, ?_, rfl⟩
  · unfold sto.cleanCache
    rw [if_neg (by rw [hc]; simp), g1, Nat.zero_add]
  · show s1.cacheBytes ≤ maxBytes
    have : s1.maxCacheBytes = maxBytes := by rw [g5]; exact hm
    rw [← this]
    exact g4

/-- Claim C11.  For every engine over a cache and an origin that behave as maps
from ref to bytes and whose writes succeed, and every blob: `ReceiveBlob`
returns the ref with the length of the bytes and no error, and in every engine
reached from there by eviction steps of the cleaner, `Fetch` of the ref
returns no error, exactly those bytes and their length as size.  This covers
the engine right after the receive, where the cache serves the blob, and the
engines in which the blob has been evicted from the cache, where the origin
serves it. -/
theorem receive_then_fetch (e : Engine) (br : Ref) (bytes : List Byte) (e2 : Engine)
    (h : Evicted (e.ReceiveBlob br bytes).2 e2) :
    (e.ReceiveBlob br bytes).1 = { sb := { Ref := br, Size := bytes.length }, err := none } ∧
      ∃ e3, e2.Fetch br = some ({ rc := some bytes, size := bytes.length, err := none }, e3) :=
  engine_receive_fetch e br bytes e2 h

/-- Claim C11 at an engine with `maxCacheBytes = 0`: the blob "foo" is evicted
from the cache by the first step of the cleaner and `Fetch` is served by the
origin. -/
theorem receive_then_fetch_witness :
    ((Engine.mk ⟨[]⟩ ⟨[]⟩ (NewCache 0)).ReceiveBlob ⟨1, 0, 0⟩ [102, 111, 111]).1
        = { sb := { Ref := ⟨1, 0, 0⟩, Size := [102, 111, 111].length }, err := none } ∧
      ∃ e3, (Engine.mk ⟨[]⟩ ⟨[(⟨1, 0, 0⟩, [102, 111, 111])]⟩ (NewCache 0)).Fetch ⟨1, 0, 0⟩
        = some ({ rc := some [102, 111, 111], size := [102, 111, 111].length, err := none }, e3) :=
  receive_then_fetch (Engine.mk ⟨[]⟩ ⟨[]⟩ (NewCache 0)) ⟨1, 0, 0⟩ [102, 111, 111]
    (Engine.mk ⟨[]⟩ ⟨[(⟨1, 0, 0⟩, [102, 111, 111])]⟩ (NewCache 0))
    (Evicted.step _ _ Evicted.refl (by decide) rfl)

/-- Claim C14.  For every `StatBlobs` call and every trace of its two streams in
which the valid sized refs that arrive are among the refs requested, the
sequence written to the destination channel consists of the first occurrence
of each valid sized ref of the merged input, in arrival order, up to the
point where the number of distinct refs seen equals the number requested; it
contains each blob ref at most once. -/
theorem statConsumer_dest_first_occurrences (s : sto) (blobs : List Ref)
    (valid : SizedRef → Bool) (events : List Event)
    (hreq : ∀ sb, sb ∈ received events true true → valid sb = true → sb.Ref ∈ blobs) :
    (s.statConsumer blobs valid events).dest
        = (firstOccurrences valid (received events true true) []).take blobs.length ∧
      ((s.statConsumer blobs valid events).dest.map SizedRef.Ref).Nodup :=
  statConsumer_dest_eq s blobs valid events hreq

/-- Claim C14 at a request of two refs whose first ref arrives from both
streams before the second. -/
theorem statConsumer_dest_first_occurrences_witness :
    ((NewCache 0).statConsumer [⟨1, 0, 0⟩, ⟨2, 0, 0⟩] (fun _ => true)
        [Event.hit ⟨⟨1, 0, 0⟩, 3⟩, Event.miss ⟨⟨1, 0, 0⟩, 3⟩, Event.hitsClosed,
          Event.miss ⟨⟨2, 0, 0⟩, 4⟩, Event.missesClosed]).dest
        = (firstOccurrences (fun _ => true)
            (received [Event.hit ⟨⟨1, 0, 0⟩, 3⟩, Event.miss ⟨⟨1, 0, 0⟩, 3⟩, Event.hitsClosed,
              Event.miss ⟨⟨2, 0, 0⟩, 4⟩, Event.missesClosed] true true) []).take
            [(⟨1, 0, 0⟩ : Ref), ⟨2, 0, 0⟩].length ∧
      (((NewCache 0).statConsumer [⟨1, 0, 0⟩, ⟨2, 0, 0⟩] (fun _ => true)
        [Event.hit ⟨⟨1, 0, 0⟩, 3⟩, Event.miss ⟨⟨1, 0, 0⟩, 3⟩, Event.hitsClosed,
          Event.miss ⟨⟨2, 0, 0⟩, 4⟩, Event.missesClosed]).dest.map SizedRef.Ref).Nodup :=
  statConsumer_dest_first_occurrences (NewCache 0) [⟨1, 0, 0⟩, ⟨2, 0, 0⟩] (fun _ => true)
    [Event.hit ⟨⟨1, 0, 0⟩, 3⟩, Event.miss ⟨⟨1, 0, 0⟩, 3⟩, Event.hitsClosed,
      Event.miss ⟨⟨2, 0, 0⟩, 4⟩, Event.missesClosed] (by decide)

/-- Claim C19.  For every engine created by `NewCache` with
`maxCacheBytes ≥ 0` over an unbounded LRU, when every touch of a ref carries
the `uint32` size of that ref and the removals from the cache and the stats
receiver succeed: in every state reached by touches and eviction steps run
one at a time, `cacheBytes > maxCacheBytes` implies that the LRU is not empty,
and a pass of the cleaner given at least as many iterations as the LRU has
entries finishes, without a panic, after `n` evictions of the oldest entries
with `cacheBytes ≤ maxCacheBytes`. -/
theorem cleaner_terminates (size : Nat → Nat) (maxBytes : Int) (s : sto)
    (hsize : ∀ k, size k < 2 ^ 32) (hmax : 0 ≤ maxBytes) (h : ReachableSized size maxBytes s) :
    (s.needsRemoval = true → s.lru.entries ≠ []) ∧
      ∀ fuel, s.lru.entries.length ≤ fuel →
        ∃ s1 n, sto.cleanCache fuel s (fun _ => (none, none)) = CleanOutcome.finished s1 n ∧
          n ≤ s.lru.entries.length ∧
          s1.lru.entries = s.lru.entries.take (s.lru.entries.length - n) ∧
          s1.cacheBytes ≤ maxBytes ∧ s1.isCleaning = false :=
  cleanCache_finishes size maxBytes s hsize hmax h

/-- Claim C19 at the engine with `maxCacheBytes = 3` after a blob of 5 bytes
was touched. -/
theorem cleaner_terminates_witness :
    ((((NewCache 3).touchBlob ⟨⟨1, 0, 0⟩, 5⟩).touchStat ⟨⟨1, 0, 0⟩, 5⟩).needsRemoval = true →
        (((NewCache 3).touchBlob ⟨⟨1, 0, 0⟩, 5⟩).touchStat ⟨⟨1, 0, 0⟩, 5⟩).lru.entries ≠ []) ∧
      ∀ fuel, (((NewCache 3).touchBlob ⟨⟨1, 0, 0⟩, 5⟩).touchStat ⟨⟨1, 0, 0⟩, 5⟩).lru.entries.length ≤ fuel →
        ∃ s1 n, sto.cleanCache fuel (((NewCache 3).touchBlob ⟨⟨1, 0, 0⟩, 5⟩).touchStat ⟨⟨1, 0, 0⟩, 5⟩)
            (fun _ => (none, none)) = CleanOutcome.finished s1 n ∧
          n ≤ (((NewCache 3).touchBlob ⟨⟨1, 0, 0⟩, 5⟩).touchStat ⟨⟨1, 0, 0⟩, 5⟩).lru.entries.length ∧
          s1.lru.entries = (((NewCache 3).touchBlob ⟨⟨1, 0, 0⟩, 5⟩).touchStat ⟨⟨1, 0, 0⟩, 5⟩).lru.entries.take
            ((((NewCache 3).touchBlob ⟨⟨1, 0, 0⟩, 5⟩).touchStat ⟨⟨1, 0, 0⟩, 5⟩).lru.entries.length - n) ∧
          s1.cacheBytes ≤ 3 ∧ s1.isCleaning = false :=
  cleaner_terminates (fun _ => 5) 3 (((NewCache 3).touchBlob ⟨⟨1, 0, 0⟩, 5⟩).touchStat ⟨⟨1, 0, 0⟩, 5⟩)
    (fun _ => (by decide : (5 : Nat) < 2 ^ 32)) (by decide)
    (ReachableSized.touchBlob _ ⟨1, 0, 0⟩ ReachableSized.init)

end proxycache

end Camlistore
